import Mathlib

/-!
Verification of the comment-parsing and dependency-resolution core of the
pyjsdoc documentation extractor.  The Python functions of `pyjsdoc.py` (and
their identical twins in `jsdoc.py`) are shallowly embedded as executable Lean
definitions over `List Char` / `String`, and the spec claims are settled as
theorems about those definitions.
-/

namespace PyJsDoc

/-- Python 2 `\s` whitespace class for byte strings: space, tab, newline,
carriage return, vertical tab, form feed. -/
def isPySpace (c : Char) : Bool :=
  c = ' ' || c = '\t' || c = '\n' || c = '\r' || c = Char.ofNat 11 || c = Char.ofNat 12

/-- Python 2 `\w` word-character class (no re.UNICODE): ASCII letters, digits
and underscore. -/
def isPyWord (c : Char) : Bool :=
  c.isAlphanum || c = '_'

/-- Python `str.strip()` on the left: drop leading whitespace. -/
def pyStripLeft (s : List Char) : List Char :=
  s.dropWhile isPySpace

/-- Python `str.strip()`: drop leading and trailing whitespace. -/
def pyStrip (s : List Char) : List Char :=
  ((s.dropWhile isPySpace).reverse.dropWhile isPySpace).reverse

/-- Association-list lookup (first match wins), modelling a Python dict read. -/
def assocGet {K A : Type} [DecidableEq K] : List (K × A) → K → Option A
  | [], _ => none
  | (k1, v1) :: t, k => if k1 = k then some v1 else assocGet t k

/-- Association-list update-or-append, modelling a Python dict assignment. -/
def assocSet {K A : Type} [DecidableEq K] : List (K × A) → K → A → List (K × A)
  | [], k, v => [(k, v)]
  | (k1, v1) :: t, k, v => if k1 = k then (k, v) :: t else (k1, v1) :: assocSet t k v

/-!
## Delimited splitter (`split_delimited`)

The Python source receives the delimiter pairs as an even-length string with
each matched pair listed together, open first; here the pairs are listed as a
list of `(open, close)` characters.  The `actions` dict maps each delimiter
character to its pair index and depth increment, later assignments
overwriting earlier ones; depth counters are Python ints and may go negative.
-/

/-- Build the `actions` map of `split_delimited`: pair index and +1 for the
opening character, pair index and -1 for the closing one, in order, with
dict-overwrite semantics. -/
def mkActionsAux : List (Char × Char) → Nat → List (Char × (Nat × Int)) →
    List (Char × (Nat × Int))
  | [], _, acc => acc
  | (o, c) :: rest, i, acc =>
      mkActionsAux rest (i + 1) (assocSet (assocSet acc o (i, 1)) c (i, -1))

/-- The `actions` dict of `split_delimited`. -/
def mkActions (pairs : List (Char × Char)) : List (Char × (Nat × Int)) :=
  mkActionsAux pairs 0 []

/-- Apply the action of one scanned character to the depth-counter list
(`delims[which] = delims[which] + dir`); characters with no action leave the
counters unchanged. -/
def applyAction (delims : List Int) : Option (Nat × Int) → List Int
  | none => delims
  | some (which, dir) => delims.set which (delims.getD which 0 + dir)

/-- True when some depth counter is nonzero: Python `any(delims)` under int
truthiness (negative counters are truthy too). -/
def anyNonzero (delims : List Int) : Bool :=
  delims.any (fun d => d != 0)

/-- Main loop of `split_delimited`: walk the text, splitting at characters
satisfying the predicate when all depth counters are zero (checked before the
character updates the counters), accumulating the current segment reversed. -/
def splitDelimGo (acts : List (Char × (Nat × Int))) (p : Char → Bool) :
    List Int → List Char → List Char → List (List Char)
  | _, acc, [] => [acc.reverse]
  | delims, acc, ch :: rest =>
      if p ch && !anyNonzero delims then
        acc.reverse :: splitDelimGo acts p (applyAction delims (assocGet acts ch)) [] rest
      else
        splitDelimGo acts p (applyAction delims (assocGet acts ch)) (ch :: acc) rest

/-- The `split_delimited` generator, eagerly collected.  `pairs` are the
delimiter pairs, `p` the split predicate (a split-by character `c` is the
predicate `fun x => x = c`), `text` the input. -/
def split_delimited (pairs : List (Char × Char)) (p : Char → Bool)
    (text : List Char) : List (List Char) :=
  splitDelimGo (mkActions pairs) p (List.replicate pairs.length 0) [] text

/-- Specification-side count of qualifying split points: positions whose
character satisfies the split predicate while every delimiter-pair depth
counter is simultaneously zero, the depth state being threaded exactly as the
tokenizer threads it. -/
def zeroDepthSplitCountGo (acts : List (Char × (Nat × Int))) (p : Char → Bool) :
    List Int → List Char → Nat
  | _, [] => 0
  | delims, ch :: rest =>
      let n := zeroDepthSplitCountGo acts p (applyAction delims (assocGet acts ch)) rest
      if p ch && !anyNonzero delims then n + 1 else n

/-- Number of split points of the input at zero depth, per the specification
of the delimited splitter. -/
def zeroDepthSplitCount (pairs : List (Char × Char)) (p : Char → Bool)
    (text : List Char) : Nat :=
  zeroDepthSplitCountGo (mkActions pairs) p (List.replicate pairs.length 0) text

theorem splitDelimGo_length (acts : List (Char × (Nat × Int))) (p : Char → Bool) :
    ∀ (text : List Char) (delims : List Int) (acc : List Char),
      (splitDelimGo acts p delims acc text).length
        = 1 + zeroDepthSplitCountGo acts p delims text := by
  intro text
  induction text with
  | nil => intro delims acc; simp [splitDelimGo, zeroDepthSplitCountGo]
  | cons ch rest ih =>
      intro delims acc
      by_cases h : (p ch && !anyNonzero delims) = true
      · simp [splitDelimGo, zeroDepthSplitCountGo, h, ih]
        omega
      · simp [splitDelimGo, zeroDepthSplitCountGo, h, ih]

/-- C7: for every delimiter-pair configuration, split predicate and input
text, `split_delimited` returns exactly one more segment than the number of
positions where a character satisfies the split predicate while all
delimiter-pair depth counters are simultaneously zero; and on empty input the
result is the single-element sequence containing the empty string. -/
theorem split_delimited_segment_count (pairs : List (Char × Char))
    (p : Char → Bool) (text : List Char) :
    (split_delimited pairs p text).length = 1 + zeroDepthSplitCount pairs p text
      ∧ split_delimited pairs p [] = [[]] := by
  constructor
  · exact splitDelimGo_length (mkActions pairs) p text (List.replicate pairs.length 0) []
  · simp [split_delimited, splitDelimGo]

/-!
## Star stripping (`strip_stars`)

`strip_stars` slices off the first three and last two characters of the
comment (the `/**` and `*/` markers) and then applies
`re.sub('\n\s*?\*\s*?', '\n', ...)` followed by `.strip()`.  The lazy
quantifiers make the regex match a newline, the shortest whitespace run
reaching a star, and the star itself (the trailing lazy `\s*?` always matches
the empty string), so each such occurrence collapses to a bare newline.
-/

/-- Lazy `\s*?\*` after a newline: skip whitespace up to the first `*`;
return the remainder after that star, or `none` when the first non-whitespace
character is not a star (or the text ends). -/
def matchStarPrefix : List Char → Option (List Char)
  | [] => none
  | c :: rest =>
      if c = '*' then some rest
      else if isPySpace c then matchStarPrefix rest
      else none

/-- Fuelled scanner for `re.sub('\n\s*?\*\s*?', '\n', text)`: at each newline
whose following whitespace run reaches a star, drop that run and the star,
keeping the newline.  The fuel only bounds recursion depth; one unit per
emitted character is always enough. -/
def stripStarsSubGo : Nat → List Char → List Char
  | 0, _ => []
  | _ + 1, [] => []
  | fuel + 1, c :: rest =>
      if c = '\n' then
        match matchStarPrefix rest with
        | some rem => '\n' :: stripStarsSubGo fuel rem
        | none => '\n' :: stripStarsSubGo fuel rest
      else c :: stripStarsSubGo fuel rest

/-- The regex substitution of `strip_stars`. -/
def stripStarsSub (text : List Char) : List Char :=
  stripStarsSubGo text.length text

/-- The `strip_stars` function: slice `[3:-2]`, collapse star decorations,
strip surrounding whitespace. -/
def strip_stars (doc_comment : List Char) : List Char :=
  pyStrip (stripStarsSub ((doc_comment.drop 3).dropLast.dropLast))

/-- One star-decorated, newline-prefixed line of a well-formed doc comment:
a newline, some whitespace, a star, then the line content. -/
def starLine (ws line : List Char) : List Char :=
  '\n' :: (ws ++ '*' :: line)

/-- A well-formed doc comment assembled from decorated lines: open marker,
star-decorated newline-prefixed lines, close marker. -/
def mkStarComment (ls : List (List Char × List Char)) : List Char :=
  ['/', '*', '*'] ++ (ls.map (fun wl => starLine wl.1 wl.2)).flatten ++ ['*', '/']

/-- The interior of a well-formed comment with the star decoration removed:
each line keeps its newline prefix and its content. -/
def interiorLines (ls : List (List Char × List Char)) : List Char :=
  (ls.map (fun wl => '\n' :: wl.2)).flatten

theorem isPySpace_ne_star {c : Char} (h : isPySpace c = true) : c ≠ '*' := by
  intro heq
  subst heq
  exact absurd h (by decide)

theorem matchStarPrefix_spaces {ws : List Char} (t : List Char)
    (h : ∀ c ∈ ws, isPySpace c = true) :
    matchStarPrefix (ws ++ '*' :: t) = some t := by
  induction ws with
  | nil => simp [matchStarPrefix]
  | cons c ws ih =>
      have hc : isPySpace c = true := h c (by simp)
      have hne : c ≠ '*' := isPySpace_ne_star hc
      simp only [List.cons_append, matchStarPrefix, if_neg hne, if_pos hc]
      exact ih (fun x hx => h x (by simp [hx]))

theorem stripStarsSubGo_line (line : List Char) (hline : '\n' ∉ line) :
    ∀ (f : Nat) (rest : List Char),
      stripStarsSubGo (line.length + f) (line ++ rest) = line ++ stripStarsSubGo f rest := by
  induction line with
  | nil => intro f rest; simp
  | cons c t ih =>
      intro f rest
      have hc : c ≠ '\n' := by
        intro heq; exact hline (heq ▸ List.mem_cons_self c t)
      have hlen : t.length + 1 + f = (t.length + f) + 1 := by omega
      simp only [List.length_cons, List.cons_append, hlen, stripStarsSubGo, if_neg hc]
      rw [ih (fun hm => hline (List.mem_cons_of_mem c hm)) f rest]

theorem stripStarsSubGo_segment (ws line : List Char)
    (hws : ∀ c ∈ ws, isPySpace c = true) (hline : '\n' ∉ line)
    (f : Nat) (rest : List Char) :
    stripStarsSubGo (line.length + 1 + f) (starLine ws line ++ rest)
      = '\n' :: line ++ stripStarsSubGo f rest := by
  have hlen : line.length + 1 + f = (line.length + f) + 1 := by omega
  have hmatch : matchStarPrefix ((ws ++ '*' :: line) ++ rest) = some (line ++ rest) := by
    rw [List.append_assoc, List.cons_append]
    exact matchStarPrefix_spaces (line ++ rest) hws
  simp only [starLine, List.cons_append, hlen, stripStarsSubGo, hmatch]
  rw [stripStarsSubGo_line line hline f rest]
  simp

/-- Fuel needed by the decorated-lines part of the scan: one unit per newline
plus one per line character. -/
def segFuel (ls : List (List Char × List Char)) : Nat :=
  (ls.map (fun wl => wl.2.length + 1)).sum

theorem stripStarsSubGo_lines (ls : List (List Char × List Char))
    (h : ∀ wl ∈ ls, (∀ c ∈ wl.1, isPySpace c = true) ∧ '\n' ∉ wl.2) :
    ∀ (f : Nat) (rest : List Char),
      stripStarsSubGo (segFuel ls + f) ((ls.map (fun wl => starLine wl.1 wl.2)).flatten ++ rest)
        = interiorLines ls ++ stripStarsSubGo f rest := by
  induction ls with
  | nil => intro f rest; simp [segFuel, interiorLines]
  | cons wl t ih =>
      intro f rest
      have hwl := h wl (by simp)
      have hfuel : segFuel (wl :: t) + f = wl.2.length + 1 + (segFuel t + f) := by
        simp [segFuel]; omega
      have htext : ((wl :: t).map (fun wl => starLine wl.1 wl.2)).flatten ++ rest
          = starLine wl.1 wl.2 ++ ((t.map (fun wl => starLine wl.1 wl.2)).flatten ++ rest) := by
        simp
      rw [hfuel, htext, stripStarsSubGo_segment wl.1 wl.2 hwl.1 hwl.2]
      rw [ih (fun x hx => h x (by simp [hx])) f rest]
      simp [interiorLines]

theorem length_starLine_join (ls : List (List Char × List Char)) :
    ((ls.map (fun wl => starLine wl.1 wl.2)).flatten).length
      = segFuel ls + (ls.map (fun wl => wl.1.length + 1)).sum := by
  induction ls with
  | nil => simp [segFuel]
  | cons wl t ih =>
      simp only [List.map_cons, List.flatten_cons, List.length_append, ih]
      simp only [segFuel, List.map_cons, List.sum_cons, starLine, List.length_cons,
        List.length_append]
      omega

theorem stripStarsSubGo_nil (f : Nat) : stripStarsSubGo f [] = [] := by
  cases f <;> rfl

/-- C8 (amended): `strip_stars` applied to a well-formed doc comment (open
marker, star-decorated newline-prefixed lines whose decoration is whitespace
and a star and whose content has no newline, close marker) returns the
interior lines with the leading star decoration removed and surrounding
whitespace trimmed. -/
theorem strip_stars_well_formed (ls : List (List Char × List Char))
    (h : ∀ wl ∈ ls, (∀ c ∈ wl.1, isPySpace c = true) ∧ '\n' ∉ wl.2) :
    strip_stars (mkStarComment ls) = pyStrip (interiorLines ls) := by
  have h1 : (mkStarComment ls).drop 3
      = (ls.map (fun wl => starLine wl.1 wl.2)).flatten ++ ['*', '/'] := rfl
  have hslice : ((mkStarComment ls).drop 3).dropLast.dropLast
      = (ls.map (fun wl => starLine wl.1 wl.2)).flatten := by
    rw [h1, show (ls.map (fun wl => starLine wl.1 wl.2)).flatten ++ ['*', '/']
        = ((ls.map (fun wl => starLine wl.1 wl.2)).flatten ++ ['*']) ++ ['/'] from by simp,
      List.dropLast_concat, List.dropLast_concat]
  unfold strip_stars stripStarsSub
  rw [hslice, length_starLine_join ls]
  have hmain := stripStarsSubGo_lines ls h ((ls.map (fun wl => wl.1.length + 1)).sum) []
  rw [List.append_nil] at hmain
  rw [hmain, stripStarsSubGo_nil, List.append_nil]

/-- Witness for C8 at a concrete well-formed comment. -/
theorem strip_stars_well_formed_witness :
    strip_stars (mkStarComment [([' '], " Hi there.".toList)])
      = pyStrip (interiorLines [([' '], " Hi there.".toList)]) :=
  strip_stars_well_formed [([' '], " Hi there.".toList)] (by decide)

/-- C8 counterexample: `strip_stars` is not idempotent on its own output; on
the well-formed comment below it returns a trimmed interior, and a second
application slices three leading and two trailing characters off that. -/
theorem strip_stars_not_idempotent :
    strip_stars (mkStarComment [([' '], " Hi there.".toList)]) = "Hi there.".toList
      ∧ strip_stars (strip_stars (mkStarComment [([' '], " Hi there.".toList)])) = "ther".toList
      ∧ strip_stars (strip_stars (mkStarComment [([' '], " Hi there.".toList)]))
          ≠ strip_stars (mkStarComment [([' '], " Hi there.".toList)]) := by
  refine ⟨by decide, by decide, by decide⟩

/-!
## Comment extraction (`get_doc_comments`)

`get_doc_comments` walks the file text with `re.finditer('/\*\*(.*?)\*/', text,
re.DOTALL)` and pairs each comment with the line following it.  Python
`str.find` returns `-1` on failure, so `text.find('\n', match.end(0)) + 1`
becomes `0` when the comment is not followed by a newline; the slice stop
`text.find('\n', end)` likewise becomes `-1` (one before the end) when there
is no second newline.  Both behaviours are modelled faithfully.
-/

/-- Index of the first occurrence of `sub` in `t`, counting from `i`. -/
def findSubAux (sub : List Char) : List Char → Nat → Option Nat
  | t, i =>
      if sub.isPrefixOf t then some i
      else
        match t with
        | [] => none
        | _ :: rest => findSubAux sub rest (i + 1)

/-- Python `text.find(sub, start)`, as an `Option` (Python returns -1 on
failure; callers translate `none` per use site). -/
def findSub (text sub : List Char) (start : Nat) : Option Nat :=
  findSubAux sub (text.drop start) start

/-- Substring membership test, Python `sub in text`. -/
def containsSub (text sub : List Char) : Bool :=
  (findSub text sub 0).isSome

/-- Python slice `text[a:b]` with nonnegative indices. -/
def pySlice (text : List Char) (a b : Nat) : List Char :=
  (text.take b).drop a

/-- Spans `(start, stop)` of every match of `/\*\*(.*?)\*/` at or after
`pos`, left to right and non-overlapping: the next `/**`, then the first
`*/` after it.  The fuel bounds the recursion; matches are disjoint, so one
unit of fuel per text character is ample. -/
def docCommentSpans (text : List Char) : Nat → Nat → List (Nat × Nat)
  | 0, _ => []
  | fuel + 1, pos =>
      match findSub text ['/', '*', '*'] pos with
      | none => []
      | some i =>
          match findSub text ['*', '/'] (i + 3) with
          | none => []
          | some j => (i, j + 2) :: docCommentSpans text fuel (j + 2)

/-- The `make_pair` helper of `get_doc_comments` applied to one span. -/
def makePair (text : List Char) (span : Nat × Nat) : List Char × List Char :=
  let comment := pySlice text span.1 span.2
  let endPos : Nat :=
    match findSub text ['\n'] span.2 with
    | some k => k + 1
    | none => 0
  let next_line : List Char :=
    if containsSub comment "@class".toList then
      match findSub text ['\n'] endPos with
      | some k => pySlice text endPos k
      | none => pySlice text endPos (text.length - 1)
    else
      (split_delimited [('(', ')')] (fun c => c = '\n') (text.drop endPos)).headD []
  (comment, next_line)

/-- The `get_doc_comments` function: every `(comment_text, next_line)` pair,
in order. -/
def get_doc_comments (text : List Char) : List (List Char × List Char) :=
  (docCommentSpans text (text.length + 1) 0).map (makePair text)

/-- C9 failing input: a comment that ends at end of file with no trailing
newline.  `text.find('\n', match.end(0))` is -1, so `end` becomes 0 and the
"next line" is the first line of the whole file text (here the comment
itself), not the empty string the claim requires. -/
theorem get_doc_comments_eof_without_newline :
    get_doc_comments "/** doc */".toList
        = [("/** doc */".toList, "/** doc */".toList)]
      ∧ ("/** doc */".toList, "".toList) ∉ get_doc_comments "/** doc */".toList := by
  refine ⟨by decide, by decide⟩

/-!
## Name and parameter guessing

`guess_function_name` tries the regexes `function (\w+)`, `(\w+):\sfunction`
and `\.(\w+)\s*=\s*function` in order over the next code line;
`guess_parameters` searches `\(([\w\s,]+)\)` and splits the group on commas.
Greedy character-class runs followed by a character outside the class never
backtrack usefully, so each regex is decided by maximal-run scans.
-/

/-- Leftmost-match regex search: try the single-position matcher at every
start position, left to right. -/
def reSearch (pat : List Char → Option (List Char)) : List Char → Option (List Char)
  | [] => none
  | c :: rest =>
      match pat (c :: rest) with
      | some g => some g
      | none => reSearch pat rest

/-- Match `function (\w+)` at the current position, returning the group. -/
def fnPat1At (t : List Char) : Option (List Char) :=
  if "function ".toList.isPrefixOf t then
    let run := (t.drop 9).takeWhile isPyWord
    if run = [] then none else some run
  else none

/-- Match `(\w+):\sfunction` at the current position, returning the group. -/
def fnPat2At (t : List Char) : Option (List Char) :=
  let run := t.takeWhile isPyWord
  if run = [] then none
  else
    match t.drop run.length with
    | ':' :: s :: r =>
        if isPySpace s && "function".toList.isPrefixOf r then some run else none
    | _ => none

/-- Match `\.(\w+)\s*=\s*function` at the current position, returning the
group. -/
def fnPat3At (t : List Char) : Option (List Char) :=
  match t with
  | '.' :: r =>
      let run := r.takeWhile isPyWord
      if run = [] then none
      else
        match (r.drop run.length).dropWhile isPySpace with
        | '=' :: r3 =>
            if "function".toList.isPrefixOf (r3.dropWhile isPySpace) then some run
            else none
        | _ => none
  | _ => none

/-- The `guess_function_name` heuristic: first regex that matches anywhere in
the next line wins; `none` when none match. -/
def guess_function_name (next_line : List Char) : Option (List Char) :=
  match reSearch fnPat1At next_line with
  | some g => some g
  | none =>
      match reSearch fnPat2At next_line with
      | some g => some g
      | none => reSearch fnPat3At next_line

/-- Character class `[\w\s,]` of the parameter-group regex. -/
def inParamClass (c : Char) : Bool :=
  isPyWord c || isPySpace c || c = ','

/-- Match `\(([\w\s,]+)\)` at the current position, returning the group. -/
def paramPatAt (t : List Char) : Option (List Char) :=
  match t with
  | '(' :: r =>
      let run := r.takeWhile inParamClass
      if run = [] then none
      else
        match r.drop run.length with
        | ')' :: _ => some run
        | _ => none
  | _ => none

/-- Python `str.split(sep)` on a single character: split at every occurrence,
keeping empty pieces. -/
def pySplitCharGo (sep : Char) : List Char → List Char → List (List Char)
  | acc, [] => [acc.reverse]
  | acc, c :: rest =>
      if c = sep then acc.reverse :: pySplitCharGo sep [] rest
      else pySplitCharGo sep (c :: acc) rest

/-- Python `str.split(sep)` on a single character. -/
def pySplitChar (sep : Char) (t : List Char) : List (List Char) :=
  pySplitCharGo sep [] t

/-- The `guess_parameters` heuristic: the first parenthesised `[\w\s,]+`
group, split on commas with each piece stripped; `none` when no group
exists. -/
def guess_parameters (next_line : List Char) : Option (List (List Char)) :=
  (reSearch paramPatAt next_line).map (fun g => (pySplitChar ',' g).map pyStrip)

/-!
## Tag parsing (`parse_comment`)

`parse_comment` splits the de-starred body on `re.split('\n\s*@', ...)`,
seeds the tag dict with `doc`, `guessed_function` and `guessed_params`, and
accumulates each `@tag body` section: a fresh tag is stored as its string
body; a repeated tag is promoted to a list (`existing.append` succeeds on a
list; a string or `None` raises `AttributeError` and is wrapped into a
two-element list).
-/

/-- After a newline, the `\s*@` tail of the section delimiter: skip the
whitespace run (which may span newlines) and require an `@`; returns the text
after the `@`. -/
def skipWsThenAt (l : List Char) : Option (List Char) :=
  match l.dropWhile isPySpace with
  | '@' :: t => some t
  | _ => none

/-- Fuelled scanner for `re.split('\n\s*@', text)`: split at every newline
whose following whitespace run reaches an `@`. -/
def splitSectionsGo : Nat → List Char → List Char → List (List Char)
  | 0, acc, _ => [acc.reverse]
  | _ + 1, acc, [] => [acc.reverse]
  | fuel + 1, acc, c :: rest =>
      if c = '\n' then
        match skipWsThenAt rest with
        | some t => acc.reverse :: splitSectionsGo fuel [] t
        | none => splitSectionsGo fuel (c :: acc) rest
      else splitSectionsGo fuel (c :: acc) rest

/-- The section split of `parse_comment`: body text first, then one section
per tag. -/
def splitSections (text : List Char) : List (List Char) :=
  splitSectionsGo (text.length + 1) [] text

/-- The `split_tag` helper: split a section at its first whitespace run into
a trimmed `(tagname, body)` pair; a section with no whitespace is the tag
name with an empty body. -/
def split_tag (sec : List Char) : List Char × List Char :=
  let pre := sec.takeWhile (fun c => !isPySpace c)
  let post := sec.dropWhile (fun c => !isPySpace c)
  match post with
  | [] => (pyStrip sec, [])
  | _ :: _ => (pyStrip pre, pyStrip (post.dropWhile isPySpace))

/-- An element of a list stored in the tag dict: a string body, or the `None`
placeholder (`[None, body]` arises when a tag collides with an absent
guess). -/
inductive PAtom where
  | astr (s : List Char)
  | anone
deriving DecidableEq, Repr

/-- A value of the tag dict produced by `parse_comment`: a string, `None`
(absent guess), or a list. -/
inductive PVal where
  | pstr (s : List Char)
  | pnone
  | plist (l : List PAtom)
deriving DecidableEq, Repr

/-- The tag dict of a parsed comment. -/
abbrev Parsed := List (List Char × PVal)

/-- Accumulate one `(tag, body)` section into the tag dict, with the
append-or-promote behaviour of `parse_comment`. -/
def addTag (tags : Parsed) (tag body : List Char) : Parsed :=
  match assocGet tags tag with
  | none => assocSet tags tag (.pstr body)
  | some (.pstr s) => assocSet tags tag (.plist [.astr s, .astr body])
  | some .pnone => assocSet tags tag (.plist [.anone, .astr body])
  | some (.plist l) => assocSet tags tag (.plist (l ++ [.astr body]))

/-- The `parse_comment` function: tag dict with `doc`, `guessed_function`
and `guessed_params` seeded, then every tag section accumulated in order. -/
def parse_comment (doc_comment next_line : List Char) : Parsed :=
  let sections := splitSections doc_comment
  let gf : PVal :=
    match guess_function_name next_line with
    | some s => .pstr s
    | none => .pnone
  let gp : PVal :=
    match guess_parameters next_line with
    | some l => .plist (l.map .astr)
    | none => .pnone
  let init : Parsed :=
    [("doc".toList, .pstr (pyStrip (sections.headD []))),
      ("guessed_function".toList, gf),
      ("guessed_params".toList, gp)]
  sections.tail.foldl (fun tags s => addTag tags (split_tag s).1 (split_tag s).2) init

/-- Python truthiness of a tag value: empty string, `None` and empty list
are falsy. -/
def pyTruthy : PVal → Bool
  | .pstr s => !s.isEmpty
  | .pnone => false
  | .plist l => !l.isEmpty

/-- `CommentDoc.get`: tag lookup with the empty-string default. -/
def cdGet (parsed : Parsed) (tag : List Char) : PVal :=
  (assocGet parsed tag).getD (.pstr [])

/-- `FunctionDoc.name`: `self.get('guessed_function') or self.get('function')`
under Python `or` semantics. -/
def functionDocName (parsed : Parsed) : PVal :=
  if pyTruthy (cdGet parsed "guessed_function".toList) then
    cdGet parsed "guessed_function".toList
  else cdGet parsed "function".toList

/-- True when the tag value is a list. -/
def isListValue : PVal → Bool
  | .plist _ => true
  | _ => false

theorem assocGet_assocSet_self {K A : Type} [DecidableEq K] (l : List (K × A))
    (k : K) (v : A) : assocGet (assocSet l k v) k = some v := by
  induction l with
  | nil => simp [assocGet, assocSet]
  | cons e t ih =>
      by_cases h : e.1 = k
      · simp [assocSet, assocGet, h]
      · simp [assocSet, assocGet, h, ih]

theorem assocGet_assocSet_ne {K A : Type} [DecidableEq K] (l : List (K × A))
    (k k2 : K) (v : A) (h : k2 ≠ k) :
    assocGet (assocSet l k v) k2 = assocGet l k2 := by
  induction l with
  | nil =>
      have h2 : ¬k = k2 := fun hh => h hh.symm
      simp [assocGet, assocSet, h2]
  | cons e t ih =>
      obtain ⟨k1, v1⟩ := e
      by_cases he : k1 = k
      · subst he
        have h2 : ¬k1 = k2 := fun hh => h hh.symm
        simp [assocSet, assocGet, h2]
      · by_cases he2 : k1 = k2
        · simp [assocSet, assocGet, he, he2, h]
        · simp [assocSet, assocGet, he, he2, ih]

/-- One accumulation step of `parse_comment` on an existing tag value. -/
def addStep : Option PVal → List Char → PVal
  | none, b => .pstr b
  | some (.pstr s), b => .plist [.astr s, .astr b]
  | some .pnone, b => .plist [.anone, .astr b]
  | some (.plist l), b => .plist (l ++ [.astr b])

theorem addTag_get_same (tags : Parsed) (t b : List Char) :
    assocGet (addTag tags t b) t = some (addStep (assocGet tags t) b) := by
  unfold addTag
  cases h : assocGet tags t with
  | none => simp [addStep, assocGet_assocSet_self]
  | some v => cases v <;> simp [addStep, assocGet_assocSet_self]

theorem addTag_get_other (tags : Parsed) (tag b t : List Char) (h : t ≠ tag) :
    assocGet (addTag tags tag b) t = assocGet tags t := by
  unfold addTag
  cases hv : assocGet tags tag with
  | none => exact assocGet_assocSet_ne tags tag t _ h
  | some v => cases v <;> exact assocGet_assocSet_ne tags tag t _ h

/-- Iterated accumulation of a list of tag bodies onto an initial value. -/
def accumVal : Option PVal → List (List Char) → Option PVal
  | v, [] => v
  | v, b :: bs => accumVal (some (addStep v b)) bs

/-- The bodies declared for tag `t` by the tag sections of a comment, in
order. -/
def tagBodies (dc t : List Char) : List (List Char) :=
  (splitSections dc).tail.filterMap
    (fun s => if (split_tag s).1 = t then some (split_tag s).2 else none)

theorem foldl_addTag_get (t : List Char) :
    ∀ (sections : List (List Char)) (tags : Parsed),
      assocGet (sections.foldl (fun tags s => addTag tags (split_tag s).1 (split_tag s).2) tags) t
        = accumVal (assocGet tags t)
            (sections.filterMap
              (fun s => if (split_tag s).1 = t then some (split_tag s).2 else none)) := by
  intro sections
  induction sections with
  | nil => intro tags; simp [accumVal]
  | cons s ss ih =>
      intro tags
      by_cases h : (split_tag s).1 = t
      · rw [List.foldl_cons, ih, h, addTag_get_same]
        simp [h, accumVal]
      · rw [List.foldl_cons, ih, addTag_get_other tags _ _ t (fun he => h he.symm)]
        simp [h]

theorem accumVal_plist (l : List PAtom) :
    ∀ bs : List (List Char),
      accumVal (some (.plist l)) bs = some (.plist (l ++ bs.map .astr)) := by
  intro bs
  induction bs generalizing l with
  | nil => simp [accumVal]
  | cons b bs ih => simp [accumVal, addStep, ih]

/-- The value `parse_comment` ends up storing for a tag with the given list
of bodies: nothing when absent, a plain string after one occurrence, an
ordered list after two or more. -/
def tagRepr : List (List Char) → Option PVal
  | [] => none
  | [b] => some (.pstr b)
  | bs => some (.plist (bs.map .astr))

theorem accumVal_none_eq_tagRepr (bs : List (List Char)) :
    accumVal none bs = tagRepr bs := by
  match bs with
  | [] => rfl
  | [b] => rfl
  | b1 :: b2 :: rest =>
      show accumVal (some (.plist [.astr b1, .astr b2])) rest = _
      rw [accumVal_plist]
      rfl

/-- Tag lookups are untouched by sections naming other tags, so a
non-reserved tag of `parse_comment` holds exactly the accumulated value of
its own bodies. -/
theorem parse_comment_get (dc nl t : List Char)
    (hd : t ≠ "doc".toList) (hgf : t ≠ "guessed_function".toList)
    (hgp : t ≠ "guessed_params".toList) :
    assocGet (parse_comment dc nl) t = tagRepr (tagBodies dc t) := by
  simp only [parse_comment]
  rw [foldl_addTag_get]
  have hinit : assocGet
      [("doc".toList, PVal.pstr (pyStrip ((splitSections dc).headD []))),
        ("guessed_function".toList,
          match guess_function_name nl with
          | some s => PVal.pstr s
          | none => PVal.pnone),
        ("guessed_params".toList,
          match guess_parameters nl with
          | some l => PVal.plist (l.map .astr)
          | none => PVal.pnone)] t = none := by
    have h1 : ¬("doc".toList = t) := fun hh => hd hh.symm
    have h2 : ¬("guessed_function".toList = t) := fun hh => hgf hh.symm
    have h3 : ¬("guessed_params".toList = t) := fun hh => hgp hh.symm
    simp only [assocGet]
    rw [if_neg h1, if_neg h2, if_neg h3]
  rw [hinit, accumVal_none_eq_tagRepr]
  rfl

/-- C2 counterexample: in the comment `doc\n@param x foo`, the tag `param`
appears exactly once and `parse_comment` stores it as a plain string, not as
a one-element list. -/
theorem parse_comment_single_param_is_string :
    assocGet (parse_comment "doc\n@param x foo".toList []) "param".toList
        = some (.pstr "x foo".toList)
      ∧ isListValue ((assocGet (parse_comment "doc\n@param x foo".toList [])
            "param".toList).getD .pnone) = false :=
  ⟨by decide, by decide⟩

/-- C2 (amended): `parse_comment` has no special list-type tag set; a tag
(including dependency, param, option and see) that appears exactly once is
stored as its single trimmed string body, and only a tag repeated n ≥ 2
times is stored as an ordered n-element list of its bodies in declaration
order (the downstream `get_as_list` accessor is what normalises single
values to one-element lists). -/
theorem parse_comment_tag_representation (dc nl t : List Char)
    (hd : t ≠ "doc".toList) (hgf : t ≠ "guessed_function".toList)
    (hgp : t ≠ "guessed_params".toList) :
    assocGet (parse_comment dc nl) t = tagRepr (tagBodies dc t) :=
  parse_comment_get dc nl t hd hgf hgp

/-- Witness for C2 at a concrete comment with one `see` tag and two `param`
tags. -/
theorem parse_comment_tag_representation_witness :
    (assocGet (parse_comment "doc\n@param a\n@param b\n@see x".toList [])
          "param".toList
        = tagRepr (tagBodies "doc\n@param a\n@param b\n@see x".toList "param".toList))
      ∧ (assocGet (parse_comment "doc\n@param a\n@param b\n@see x".toList [])
            "see".toList
          = tagRepr (tagBodies "doc\n@param a\n@param b\n@see x".toList "see".toList)) :=
  ⟨parse_comment_tag_representation _ [] _ (by decide) (by decide) (by decide),
    parse_comment_tag_representation _ [] _ (by decide) (by decide) (by decide)⟩

/-- C1 counterexample: with the comment `Some doc\n@function explicit_name`
and next line `function foo(a, b)` both an explicit `@function` tag and a
guessed name exist, and `FunctionDoc.name` resolves to the guessed `foo`,
not to the explicit `explicit_name`. -/
theorem functionDocName_prefers_guessed :
    functionDocName
        (parse_comment "Some doc\n@function explicit_name".toList
          "function foo(a, b)".toList) = .pstr "foo".toList
      ∧ cdGet (parse_comment "Some doc\n@function explicit_name".toList
            "function foo(a, b)".toList) "function".toList
          = .pstr "explicit_name".toList
      ∧ PVal.pstr "foo".toList ≠ PVal.pstr "explicit_name".toList :=
  ⟨by decide, by decide, by decide⟩

/-- C1 (amended): `FunctionDoc.name` prefers the guessed name: whenever the
heuristic guesses a (nonempty) name from the next code line, that guess is
the display name even when an explicit `@function` tag is present, and the
explicit `@function` tag value is used only when no name could be guessed
(the comment is assumed not to declare a literal `@guessed_function` tag,
which would overwrite the seeded guess). -/
theorem functionDocName_resolution (dc nl : List Char)
    (hng : ∀ s ∈ (splitSections dc).tail, (split_tag s).1 ≠ "guessed_function".toList) :
    (∀ g, guess_function_name nl = some g → g ≠ [] →
        functionDocName (parse_comment dc nl) = .pstr g)
      ∧ (guess_function_name nl = none →
          functionDocName (parse_comment dc nl)
            = cdGet (parse_comment dc nl) "function".toList) := by
  have hbodies : tagBodies dc "guessed_function".toList = [] := by
    unfold tagBodies
    rw [List.filterMap_eq_nil_iff]
    intro s hs
    rw [if_neg (hng s hs)]
  have hgf : assocGet (parse_comment dc nl) "guessed_function".toList
      = accumVal (some (match guess_function_name nl with
          | some s => PVal.pstr s
          | none => PVal.pnone)) [] := by
    simp only [parse_comment]
    rw [foldl_addTag_get]
    have : ((splitSections dc).tail.filterMap
        (fun s => if (split_tag s).1 = "guessed_function".toList
          then some (split_tag s).2 else none)) = [] := hbodies
    rw [this]
    simp [assocGet]
  constructor
  · intro g hg hne
    rw [hg] at hgf
    have hval : cdGet (parse_comment dc nl) "guessed_function".toList = .pstr g := by
      unfold cdGet
      rw [hgf]
      rfl
    obtain ⟨c0, g0, rfl⟩ : ∃ c0 g0, g = c0 :: g0 := by
      cases g with
      | nil => exact absurd rfl hne
      | cons c0 g0 => exact ⟨c0, g0, rfl⟩
    unfold functionDocName
    rw [hval]
    rfl
  · intro hg
    rw [hg] at hgf
    have hval : cdGet (parse_comment dc nl) "guessed_function".toList = .pnone := by
      unfold cdGet
      rw [hgf]
      rfl
    unfold functionDocName
    rw [hval]
    rfl

/-- Witness for C1 at concrete inputs covering both resolution branches. -/
theorem functionDocName_resolution_witness :
    functionDocName
        (parse_comment "Some doc\n@function explicit_name".toList
          "function foo(a, b)".toList) = .pstr "foo".toList
      ∧ functionDocName (parse_comment "Some doc\n@function explicit_name".toList [])
          = cdGet (parse_comment "Some doc\n@function explicit_name".toList [])
              "function".toList :=
  ⟨(functionDocName_resolution "Some doc\n@function explicit_name".toList
      "function foo(a, b)".toList (by decide)).1 "foo".toList (by decide) (by decide),
    (functionDocName_resolution "Some doc\n@function explicit_name".toList []
      (by decide)).2 (by decide)⟩

/-!
## `CommentDoc.get_as_list` and its copy semantics

`get_as_list` returns `val[:]` for a stored list and `[val]` (or `[]` for an
absent tag) otherwise, so the returned list is always a fresh object.  To
state the aliasing claim, list objects live in an explicit store of cells and
the tag dict holds either inline strings or references to cells; the embedded
`get_as_list` allocates a new cell — for a stored list, a copy of its
contents — and returns its reference.
-/

/-- A store of Python list objects: each cell is a list of strings. -/
structure Store where
  cells : List (List String)
deriving DecidableEq, Repr

/-- Allocate a fresh list cell, returning the updated store and the new
reference. -/
def allocCell (st : Store) (v : List String) : Store × Nat :=
  (⟨st.cells ++ [v]⟩, st.cells.length)

/-- Read a list cell. -/
def readCell (st : Store) (r : Nat) : List String :=
  st.cells.getD r []

/-- Mutate a list cell in place. -/
def writeCell (st : Store) (r : Nat) (v : List String) : Store :=
  ⟨st.cells.set r v⟩

/-- A value stored in a `CommentDoc`'s parsed dict: an inline string or a
reference to a list cell. -/
inductive TagValue where
  | tstr (s : String)
  | tref (r : Nat)
deriving DecidableEq, Repr

/-- A parsed dict whose list values live in the store. -/
abbrev TagDict := List (String × TagValue)

/-- `CommentDoc.get_as_list`: absent tag gives a fresh empty list, an inline
string is wrapped in a fresh one-element list, a stored list is copied with
`val[:]` into a fresh cell.  Returns the updated store and the reference to
the returned list object. -/
def get_as_list (st : Store) (parsed : TagDict) (tag : String) : Store × Nat :=
  match assocGet parsed tag with
  | none => allocCell st []
  | some (.tstr s) => allocCell st [s]
  | some (.tref r) => allocCell st (readCell st r)

/-- Observable value of a tag through the store. -/
def observeTag (st : Store) (parsed : TagDict) (tag : String) : Option (List String) :=
  match assocGet parsed tag with
  | none => none
  | some (.tstr s) => some [s]
  | some (.tref r) => some (readCell st r)

/-- A tag value respects the store bound when any cell it references exists. -/
def refBound (st : Store) : TagValue → Bool
  | .tstr _ => true
  | .tref r => r < st.cells.length

/-- References of a dict are valid in a store when every referenced cell
index is below the store size. -/
def dictValid (st : Store) (parsed : TagDict) : Prop :=
  ∀ e ∈ parsed, refBound st e.2 = true

instance (st : Store) (parsed : TagDict) : Decidable (dictValid st parsed) :=
  List.decidableBAll (fun (e : String × TagValue) => refBound st e.2 = true) parsed

theorem assocGet_mem {K A : Type} [DecidableEq K] (l : List (K × A)) (k : K) (v : A)
    (h : assocGet l k = some v) : (k, v) ∈ l := by
  induction l with
  | nil => simp [assocGet] at h
  | cons e t ih =>
      obtain ⟨k1, v1⟩ := e
      by_cases he : k1 = k
      · subst he
        simp only [assocGet, if_pos rfl] at h
        injection h with h2
        subst h2
        exact List.mem_cons_self _ _
      · simp only [assocGet, if_neg he] at h
        exact List.mem_cons_of_mem _ (ih h)

theorem readCell_writeCell_ne (st : Store) (r w : Nat) (v : List String)
    (h : w ≠ r) : readCell (writeCell st w v) r = readCell st r := by
  unfold readCell writeCell
  simp [List.getD]
  rw [List.getElem?_set_ne h]

theorem readCell_append (st : Store) (r : Nat) (v : List String)
    (h : r < st.cells.length) :
    readCell ⟨st.cells ++ [v]⟩ r = readCell st r := by
  unfold readCell
  simp [List.getD]
  rw [List.getElem?_append_left h]

/-- C10: `get_as_list` returns a fresh list disjoint from every list stored
in the parsed dict — the empty list for an absent tag, a one-element wrap of
an inline string, a copy of the stored list — and mutating the returned list
through its reference leaves the observable value of every tag of the dict
unchanged. -/
theorem get_as_list_fresh_copy (st : Store) (parsed : TagDict) (tag : String)
    (hv : dictValid st parsed) :
    (∀ e ∈ parsed, ∀ r, e.2 = TagValue.tref r → (get_as_list st parsed tag).2 ≠ r)
      ∧ readCell (get_as_list st parsed tag).1 (get_as_list st parsed tag).2
          = ((observeTag st parsed tag).getD [])
      ∧ ∀ (v : List String) (t2 : String),
          observeTag (writeCell (get_as_list st parsed tag).1
              (get_as_list st parsed tag).2 v) parsed t2
            = observeTag st parsed t2 := by
  have hsnd : (get_as_list st parsed tag).2 = st.cells.length := by
    unfold get_as_list
    cases assocGet parsed tag with
    | none => rfl
    | some tv => cases tv <;> rfl
  have hcells : ∃ nv, (get_as_list st parsed tag).1 = ⟨st.cells ++ [nv]⟩
      ∧ nv = (observeTag st parsed tag).getD [] := by
    unfold get_as_list observeTag
    cases assocGet parsed tag with
    | none => exact ⟨[], rfl, rfl⟩
    | some tv => cases tv with
        | tstr s => exact ⟨[s], rfl, rfl⟩
        | tref r => exact ⟨readCell st r, rfl, rfl⟩
  obtain ⟨nv, hst, hnv⟩ := hcells
  refine ⟨?_, ?_, ?_⟩
  · intro e he r hr
    rw [hsnd]
    have hb := hv e he
    rw [hr] at hb
    simp only [refBound, decide_eq_true_eq] at hb
    omega
  · rw [hst, hsnd, hnv]
    unfold readCell
    simp [List.getD]
  · intro v t2
    rw [hsnd, hst]
    unfold observeTag
    cases hg : assocGet parsed t2 with
    | none => rfl
    | some tv =>
        cases tv with
        | tstr s => rfl
        | tref r =>
            have hm := assocGet_mem parsed t2 _ hg
            have hrval := hv (t2, TagValue.tref r) hm
            simp only [refBound, decide_eq_true_eq] at hrval
            have hne : (⟨st.cells ++ [nv]⟩ : Store).cells.length - 1 = st.cells.length := by
              simp
            show some (readCell (writeCell ⟨st.cells ++ [nv]⟩ st.cells.length v) r)
              = some (readCell st r)
            have hner : st.cells.length ≠ r := by omega
            rw [readCell_writeCell_ne _ _ _ _ hner, readCell_append st r nv hrval]

/-- Witness for C10 at a concrete store and dict. -/
theorem get_as_list_fresh_copy_witness :
    dictValid ⟨[["a", "b"]]⟩ [("param", TagValue.tref 0), ("see", TagValue.tstr "x")]
      ∧ (∀ e ∈ [("param", TagValue.tref 0), ("see", TagValue.tstr "x")], ∀ r,
            e.2 = TagValue.tref r →
            (get_as_list ⟨[["a", "b"]]⟩
              [("param", TagValue.tref 0), ("see", TagValue.tstr "x")] "param").2 ≠ r)
        ∧ readCell (get_as_list ⟨[["a", "b"]]⟩
              [("param", TagValue.tref 0), ("see", TagValue.tstr "x")] "param").1
            (get_as_list ⟨[["a", "b"]]⟩
              [("param", TagValue.tref 0), ("see", TagValue.tstr "x")] "param").2
          = ((observeTag ⟨[["a", "b"]]⟩
              [("param", TagValue.tref 0), ("see", TagValue.tstr "x")] "param").getD [])
        ∧ ∀ (v : List String) (t2 : String),
            observeTag (writeCell (get_as_list ⟨[["a", "b"]]⟩
                [("param", TagValue.tref 0), ("see", TagValue.tstr "x")] "param").1
              (get_as_list ⟨[["a", "b"]]⟩
                [("param", TagValue.tref 0), ("see", TagValue.tstr "x")] "param").2 v)
              [("param", TagValue.tref 0), ("see", TagValue.tstr "x")] t2
              = observeTag ⟨[["a", "b"]]⟩
                [("param", TagValue.tref 0), ("see", TagValue.tstr "x")] t2 :=
  ⟨by decide,
    get_as_list_fresh_copy ⟨[["a", "b"]]⟩
      [("param", TagValue.tref 0), ("see", TagValue.tstr "x")] "param" (by decide)⟩

/-!
## Dependency graph and topological sort

`build_dependency_graph` discovers all nodes reachable from the start set,
recording for each file its in-degree (the length of its declared dependency
list) and its reverse edges (dependency → dependent), and collecting the
zero-in-degree nodes as the initial ready stack.  `topological_sort` pops the
ready stack (from the end), appends to the result, decrements dependents, and
reports a `CyclicDependency` with the positive-in-degree leftovers when the
stack empties early.  Python raises `KeyError` when a start node is missing
from the lookup; in-degrees are Python ints and may in principle go negative,
so they are modelled as `Int`.  The recursions are fuelled; the fuel is an
embedding device only, and the chosen budgets are proved sufficient.
-/

/-- The dependency lookup: file key to declared immediate dependencies (a
`CodeBaseDoc` seen through `module.dependencies`). -/
abbrev Lookup := List (String × List String)

/-- Errors of dependency resolution. -/
inductive DepError where
  | cyclic (remaining : List String)
  | missing (file dependency : String)
  | keyError (file : String)
  | fuelExhausted
deriving DecidableEq, Repr

/-- The graph representation of `build_dependency_graph`: filename to
(in-degree, reverse-edge list). -/
abbrev Graph := List (String × (Int × List String))

/-- Mutable state of the graph builder: the graph under construction, the
not-yet-processed suffix of the discovery queue, and the zero-in-degree
start list. -/
structure BuildSt where
  graph : Graph
  pending : List String
  startSort : List String
deriving DecidableEq, Repr

/-- The `add_vertex` helper: record the file with in-degree equal to its
dependency count and empty edges, enqueue it, and remember it as a start
node when its in-degree is zero. -/
def addVertex (st : BuildSt) (file : String) (deps : List String) : BuildSt :=
  { graph := assocSet st.graph file ((deps.length : Int), []),
    pending := st.pending ++ [file],
    startSort := if deps.length = 0 then st.startSort ++ [file] else st.startSort }

/-- The `add_edge` helper: append the dependent to the dependency's edge
list.  Call sites ensure the source is in the graph, so the fallback branch
is unreachable. -/
def addEdge (g : Graph) (fromFile toFile : String) : Graph :=
  match assocGet g fromFile with
  | none => g
  | some (deg, es) => assocSet g fromFile (deg, es ++ [toFile])

/-- One step of the dependency loop of `build_dependency_graph`: an
undiscovered dependency is added as a vertex, and a reverse edge
(dependency → dependent) is recorded. -/
def depStep (file d : String) (ddeps : List String)
    (st : BuildSt) : BuildSt :=
  let st2 := if (assocGet st.graph d).isSome then st else addVertex st d ddeps
  { st2 with graph := addEdge st2.graph d file }

/-- Process the dependency list of one dequeued file: a dependency absent
from the lookup raises `MissingDependency(file, dependency)`; otherwise one
`depStep` per dependency. -/
def processDeps (jsDoc : Lookup) (file : String) :
    BuildSt → List String → Except DepError BuildSt
  | st, [] => .ok st
  | st, d :: ds =>
      match assocGet jsDoc d with
      | none => .error (.missing file d)
      | some ddeps => processDeps jsDoc file (depStep file d ddeps st) ds

/-- The discovery loop over the growing queue (`for file in queue`). -/
def buildLoop (jsDoc : Lookup) : Nat → BuildSt → Except DepError (Graph × List String)
  | 0, _ => .error .fuelExhausted
  | fuel + 1, st =>
      match st.pending with
      | [] => .ok (st.graph, st.startSort)
      | f :: rest =>
          match assocGet jsDoc f with
          | none => .error (.keyError f)
          | some fdeps =>
              match processDeps jsDoc f { st with pending := rest } fdeps with
              | .error e => .error e
              | .ok st2 => buildLoop jsDoc fuel st2

/-- Seed the builder with the start nodes (`for file in start_nodes:
add_vertex(file)`); a start node absent from the lookup raises `KeyError`. -/
def addStarts (jsDoc : Lookup) : BuildSt → List String → Except DepError BuildSt
  | st, [] => .ok st
  | st, s :: ss =>
      match assocGet jsDoc s with
      | none => .error (.keyError s)
      | some deps => addStarts jsDoc (addVertex st s deps) ss

/-- The `build_dependency_graph` function: graph plus zero-in-degree start
list, or the first error met during discovery. -/
def build_dependency_graph (start_nodes : List String) (jsDoc : Lookup) :
    Except DepError (Graph × List String) :=
  match addStarts jsDoc ⟨[], [], []⟩ start_nodes with
  | .error e => .error e
  | .ok st => buildLoop jsDoc (jsDoc.length + start_nodes.length + 1) st

/-- One pass of `for child in edges(node)`: decrement each child's
in-degree, pushing children whose in-degree reaches exactly zero onto the
ready stack. -/
def processChildren : Graph → List String → List String → Except DepError (Graph × List String)
  | g, stack, [] => .ok (g, stack)
  | g, stack, c :: cs =>
      match assocGet g c with
      | none => .error (.keyError c)
      | some (deg, es) =>
          processChildren (assocSet g c (deg - 1, es))
            (if deg - 1 = 0 then stack ++ [c] else stack) cs

/-- Nodes with in-degree still above zero once the ready stack empties. -/
def leftoverNodes (g : Graph) : List String :=
  (g.filter (fun e => 0 < e.2.1)).map Prod.fst

/-- The main loop of `topological_sort`: pop the ready stack from the end,
append to the result, relax outgoing edges; at the end, leftover
positive-in-degree nodes mean a cycle. -/
def sortLoop : Nat → Graph → List String → List String → Except DepError (List String)
  | 0, _, _, _ => .error .fuelExhausted
  | fuel + 1, g, stack, retval =>
      match stack.getLast? with
      | none =>
          if leftoverNodes g = [] then .ok retval
          else .error (.cyclic (leftoverNodes g))
      | some node =>
          match assocGet g node with
          | none => .error (.keyError node)
          | some (_, es) =>
              match processChildren g stack.dropLast es with
              | .error e => .error e
              | .ok (g2, stack2) => sortLoop fuel g2 stack2 (retval ++ [node])

/-- The `topological_sort` function. -/
def topological_sort (g : Graph) (start_nodes : List String) :
    Except DepError (List String) :=
  sortLoop (g.length + start_nodes.length + 1) g start_nodes []

/-- The `find_dependencies` function: build the graph, then sort it. -/
def find_dependencies (start_nodes : List String) (jsDoc : Lookup) :
    Except DepError (List String) :=
  match build_dependency_graph start_nodes jsDoc with
  | .error e => .error e
  | .ok (g, ss) => topological_sort g ss

/-- C3: on the lookup `A → []`, `B → [A]`, `C → [A, B]`, sorting from the
single start node `C` returns exactly the ordered list `[A, B, C]`: the
result set is `{A, B, C}` with nothing extraneous, `A` precedes `B`, and `B`
precedes `C`. -/
theorem find_dependencies_abc :
    find_dependencies ["C"] [("A", []), ("B", ["A"]), ("C", ["A", "B"])]
      = .ok ["A", "B", "C"] := by
  rfl

/-- C5: on the lookup `X → [Y]`, `Y → [X]`, sorting from `X` raises
`CyclicDependency`, and the carried unresolved-node collection names exactly
`X` and `Y`. -/
theorem find_dependencies_cycle :
    ∃ remaining, find_dependencies ["X"] [("X", ["Y"]), ("Y", ["X"])]
        = .error (.cyclic remaining)
      ∧ "X" ∈ remaining ∧ "Y" ∈ remaining ∧ remaining.length = 2 :=
  ⟨["X", "Y"], by rfl, by decide, by decide, by decide⟩

/-!
## Graph bookkeeping

Helper views of the graph and the lookup used by the dependency-resolution
proofs: keys, per-node in-degree and edge list, the number of edges pointing
into a node, and reachability through declared dependencies.
-/

/-- The keys of a graph. -/
def graphKeys (g : Graph) : List String :=
  g.map Prod.fst

/-- The in-degree recorded for a node (0 for absent nodes). -/
def deg (g : Graph) (k : String) : Int :=
  ((assocGet g k).getD (0, [])).1

/-- The reverse-edge list recorded for a node (empty for absent nodes). -/
def edgeList (g : Graph) (k : String) : List String :=
  ((assocGet g k).getD (0, [])).2

/-- Total number of edges pointing into `x`, over all entries of the graph. -/
def totalInto (g : Graph) (x : String) : Nat :=
  (g.map (fun e => e.2.2.count x)).sum

/-- The declared dependencies of a file, empty when the file is unknown. -/
def depsOfD (jsDoc : Lookup) (k : String) : List String :=
  (assocGet jsDoc k).getD []

/-- Reachability from the start set through declared dependencies. -/
inductive Reachable (jsDoc : Lookup) (starts : List String) : String → Prop
  | base {s : String} : s ∈ starts → Reachable jsDoc starts s
  | step {x d : String} : Reachable jsDoc starts x → d ∈ depsOfD jsDoc x →
      Reachable jsDoc starts d

theorem assocGet_eq_none_of_not_mem {K A : Type} [DecidableEq K]
    (l : List (K × A)) (k : K) (h : k ∉ l.map Prod.fst) : assocGet l k = none := by
  induction l with
  | nil => rfl
  | cons e t ih =>
      have h1 : ¬e.1 = k := fun he => h (by simp [he])
      obtain ⟨k1, v1⟩ := e
      simp only [assocGet, if_neg h1]
      exact ih (fun hm => h (by simp; right; simpa using hm))

theorem mem_keys_of_assocGet {K A : Type} [DecidableEq K]
    (l : List (K × A)) (k : K) (h : (assocGet l k).isSome = true) :
    k ∈ l.map Prod.fst := by
  by_contra hc
  rw [assocGet_eq_none_of_not_mem l k hc] at h
  simp at h

theorem assocGet_isSome_of_mem_keys {K A : Type} [DecidableEq K]
    (l : List (K × A)) (k : K) (h : k ∈ l.map Prod.fst) :
    (assocGet l k).isSome = true := by
  induction l with
  | nil => simp at h
  | cons e t ih =>
      obtain ⟨k1, v1⟩ := e
      by_cases he : k1 = k
      · simp [assocGet, he]
      · simp only [assocGet, if_neg he]
        apply ih
        simp at h
        rcases h with h | h
        · exact absurd h.symm he
        · simpa using h

theorem assocSet_eq_append {K A : Type} [DecidableEq K]
    (l : List (K × A)) (k : K) (v : A) (h : assocGet l k = none) :
    assocSet l k v = l ++ [(k, v)] := by
  induction l with
  | nil => rfl
  | cons e t ih =>
      obtain ⟨k1, v1⟩ := e
      by_cases he : k1 = k
      · simp [assocGet, he] at h
      · simp only [assocGet, if_neg he] at h
        simp [assocSet, he, ih h]

theorem keys_assocSet_existing {K A : Type} [DecidableEq K]
    (l : List (K × A)) (k : K) (v : A) (h : (assocGet l k).isSome = true) :
    (assocSet l k v).map Prod.fst = l.map Prod.fst := by
  induction l with
  | nil => simp [assocGet] at h
  | cons e t ih =>
      obtain ⟨k1, v1⟩ := e
      by_cases he : k1 = k
      · simp [assocSet, he]
      · simp only [assocGet, if_neg he] at h
        simp [assocSet, he, ih h]

/-- In-degree after `assocSet`: updated at the key, untouched elsewhere. -/
theorem deg_assocSet_self (g : Graph) (k : String) (v : Int × List String) :
    deg (assocSet g k v) k = v.1 := by
  unfold deg
  rw [assocGet_assocSet_self]
  rfl

theorem deg_assocSet_ne (g : Graph) (k k2 : String) (v : Int × List String)
    (h : k2 ≠ k) : deg (assocSet g k v) k2 = deg g k2 := by
  unfold deg
  rw [assocGet_assocSet_ne _ _ _ _ h]

theorem edgeList_assocSet_self (g : Graph) (k : String) (v : Int × List String) :
    edgeList (assocSet g k v) k = v.2 := by
  unfold edgeList
  rw [assocGet_assocSet_self]
  rfl

theorem edgeList_assocSet_ne (g : Graph) (k k2 : String) (v : Int × List String)
    (h : k2 ≠ k) : edgeList (assocSet g k v) k2 = edgeList g k2 := by
  unfold edgeList
  rw [assocGet_assocSet_ne _ _ _ _ h]

theorem isSome_assocSet {K A : Type} [DecidableEq K]
    (l : List (K × A)) (k k2 : K) (v : A) :
    (assocGet (assocSet l k v) k2).isSome
      = ((assocGet l k2).isSome || k2 = k) := by
  by_cases he : k2 = k
  · subst he
    rw [assocGet_assocSet_self]
    simp
  · rw [assocGet_assocSet_ne _ _ _ _ he]
    simp [he]

/-- `totalInto` over a fresh empty-edge vertex is unchanged. -/
theorem totalInto_addFresh (g : Graph) (k : String) (n : Int) (x : String)
    (h : assocGet g k = none) :
    totalInto (assocSet g k (n, [])) x = totalInto g x := by
  rw [assocSet_eq_append g k _ h]
  unfold totalInto
  simp

/-- `totalInto` after appending one edge target grows by one exactly at that
target. -/
theorem totalInto_addEdge (g : Graph) (k : String) (dg : Int)
    (es : List String) (f x : String) (h : assocGet g k = some (dg, es)) :
    totalInto (assocSet g k (dg, es ++ [f])) x
      = totalInto g x + (if f = x then 1 else 0) := by
  induction g with
  | nil => simp [assocGet] at h
  | cons e t ih =>
      obtain ⟨k1, v1⟩ := e
      by_cases he : k1 = k
      · simp only [assocGet, if_pos he] at h
        injection h with h2
        subst h2
        simp only [assocSet, if_pos he, totalInto, List.map_cons, List.sum_cons]
        simp [List.count_append, List.count_singleton]
        by_cases hfx : f = x
        · simp [hfx, beq_iff_eq]
          omega
        · have hxf : ¬x = f := fun hh => hfx hh.symm
          simp [hfx, hxf]
      · simp only [assocGet, if_neg he] at h
        simp only [assocSet, if_neg he, totalInto, List.map_cons, List.sum_cons]
        have := ih h
        unfold totalInto at this
        omega

/-!
## Facts about one discovery step

`depStep` possibly adds the dependency as a fresh vertex and then records one
reverse edge into the processed file.  The facts below describe its effect on
keys, degrees, edge lists, edge counts, the queue, the start list, and the
termination measure (pending nodes plus undiscovered universe keys).
-/

/-- Number of universe keys not yet discovered into the graph; together with
the pending-queue length this bounds the remaining discovery work. -/
def unseenCount (jsDoc : Lookup) (g : Graph) : Nat :=
  ((jsDoc.map Prod.fst).filter (fun k => !(assocGet g k).isSome)).length

theorem filter_length_mono {A : Type} (p q : A → Bool) :
    ∀ L : List A, (∀ k ∈ L, q k = true → p k = true) →
      (L.filter q).length ≤ (L.filter p).length := by
  intro L
  induction L with
  | nil => intro _; simp
  | cons a t ih =>
      intro h
      have ht := ih (fun k hk => h k (List.mem_cons_of_mem a hk))
      by_cases hq : q a = true
      · have hp := h a (List.mem_cons_self a t) hq
        simp [List.filter_cons, hq, hp]
        omega
      · simp only [List.filter_cons]
        rw [if_neg (by simpa using hq)]
        by_cases hp : p a = true
        · rw [if_pos (by simpa using hp)]
          simp
          omega
        · rw [if_neg (by simpa using hp)]
          exact ht

theorem filter_length_drop {A : Type} [DecidableEq A] (p q : A → Bool) (d : A) :
    ∀ L : List A, (∀ k ∈ L, q k = true → p k = true) →
      p d = true → q d = false → d ∈ L →
      (L.filter q).length + 1 ≤ (L.filter p).length := by
  intro L
  induction L with
  | nil => intro _ _ _ hd; simp at hd
  | cons a t ih =>
      intro h hp hq hd
      have hmono := filter_length_mono p q t (fun k hk => h k (List.mem_cons_of_mem a hk))
      by_cases ha : a = d
      · subst ha
        simp [List.filter_cons, hp, hq]
        omega
      · have hd2 : d ∈ t := by
          cases hd with
          | head => exact absurd rfl ha
          | tail _ hm => exact hm
        have ht := ih (fun k hk => h k (List.mem_cons_of_mem a hk)) hp hq hd2
        by_cases hqa : q a = true
        · have hpa := h a (List.mem_cons_self a t) hqa
          simp [List.filter_cons, hqa, hpa]
          omega
        · simp only [List.filter_cons]
          rw [if_neg (by simpa using hqa)]
          by_cases hpa : p a = true
          · rw [if_pos (by simpa using hpa)]
            simp
            omega
          · rw [if_neg (by simpa using hpa)]
            exact ht

/-- Adding a known universe key to the graph strictly shrinks the unseen
count. -/
theorem unseenCount_assocSet_fresh (jsDoc : Lookup) (g : Graph) (d : String)
    (v : Int × List String) (hu : (assocGet jsDoc d).isSome = true)
    (hf : assocGet g d = none) :
    unseenCount jsDoc (assocSet g d v) + 1 ≤ unseenCount jsDoc g := by
  unfold unseenCount
  refine filter_length_drop _ _ d _ ?_ ?_ ?_ ?_
  · intro k _ hk
    simp only [Bool.not_eq_true'] at hk ⊢
    rw [isSome_assocSet] at hk
    simp at hk
    simp [hk.1]
  · simp [hf]
  · simp [isSome_assocSet]
  · exact mem_keys_of_assocGet jsDoc d hu

/-- Operations that preserve key presence preserve the unseen count. -/
theorem unseenCount_congr (jsDoc : Lookup) (g g2 : Graph)
    (h : ∀ k, (assocGet g2 k).isSome = (assocGet g k).isSome) :
    unseenCount jsDoc g2 = unseenCount jsDoc g := by
  unfold unseenCount
  congr 1
  apply List.filter_congr
  intro k _
  rw [h k]

theorem isSome_addEdge (g : Graph) (a b k : String) :
    (assocGet (addEdge g a b) k).isSome = (assocGet g k).isSome := by
  unfold addEdge
  cases h : assocGet g a with
  | none => rfl
  | some v =>
      obtain ⟨dg, es⟩ := v
      by_cases he : k = a
      · subst he
        rw [assocGet_assocSet_self]
        simp [h]
      · rw [assocGet_assocSet_ne _ _ _ _ he]

/-- The effect of one `depStep` on the builder state. -/
structure StepFacts (jsDoc : Lookup) (f d : String) (ddeps : List String)
    (st st2 : BuildSt) : Prop where
  keys : ∀ k, (assocGet st2.graph k).isSome = ((assocGet st.graph k).isSome || k = d)
  degOld : ∀ k, (assocGet st.graph k).isSome = true → deg st2.graph k = deg st.graph k
  degNewD : (assocGet st.graph d).isSome = false → deg st2.graph d = (ddeps.length : Int)
  edgeNe : ∀ k, k ≠ d → edgeList st2.graph k = edgeList st.graph k
  edgeD : edgeList st2.graph d = edgeList st.graph d ++ [f]
  into : ∀ x, totalInto st2.graph x = totalInto st.graph x + (if f = x then 1 else 0)
  pendEq : ((assocGet st.graph d).isSome = true ∧ st2.pending = st.pending) ∨
      (st2.pending = st.pending ++ [d] ∧ (assocGet st.graph d).isSome = false)
  ssEq : st2.startSort = st.startSort ∨
      (st2.startSort = st.startSort ++ [d] ∧ (assocGet st.graph d).isSome = false
        ∧ deg st2.graph d = 0)
  ssZero : (assocGet st.graph d).isSome = false → deg st2.graph d = 0 → d ∈ st2.startSort
  measureLe : (assocGet jsDoc d).isSome = true →
      st2.pending.length + unseenCount jsDoc st2.graph
        ≤ st.pending.length + unseenCount jsDoc st.graph
  keysND : (graphKeys st.graph).Nodup → (graphKeys st2.graph).Nodup

theorem depStep_facts (jsDoc : Lookup) (f d : String) (ddeps : List String)
    (st : BuildSt) : StepFacts jsDoc f d ddeps st (depStep f d ddeps st) := by
  by_cases hpres : (assocGet st.graph d).isSome = true
  · obtain ⟨v, hv⟩ := Option.isSome_iff_exists.mp hpres
    obtain ⟨dg, es⟩ := v
    have hgraph : (depStep f d ddeps st).graph = assocSet st.graph d (dg, es ++ [f]) := by
      unfold depStep
      rw [if_pos hpres]
      show addEdge st.graph d f = _
      unfold addEdge
      rw [hv]
    have hpend : (depStep f d ddeps st).pending = st.pending := by
      unfold depStep
      rw [if_pos hpres]
    have hss : (depStep f d ddeps st).startSort = st.startSort := by
      unfold depStep
      rw [if_pos hpres]
    have hkeys : ∀ k, (assocGet (depStep f d ddeps st).graph k).isSome
        = ((assocGet st.graph k).isSome || k = d) := by
      intro k
      rw [hgraph]
      exact isSome_assocSet st.graph d k _
    refine ⟨hkeys, ?_, ?_, ?_, ?_, ?_, ?_, ?_, ?_, ?_, ?_⟩
    · intro k _
      rw [hgraph]
      by_cases he : k = d
      · subst he
        rw [deg_assocSet_self]
        unfold deg
        rw [hv]
        rfl
      · exact deg_assocSet_ne st.graph d k _ he
    · intro hcontra
      rw [hpres] at hcontra
      exact Bool.noConfusion hcontra
    · intro k he
      rw [hgraph]
      exact edgeList_assocSet_ne st.graph d k _ he
    · rw [hgraph, edgeList_assocSet_self]
      unfold edgeList
      rw [hv]
      rfl
    · intro x
      rw [hgraph]
      exact totalInto_addEdge st.graph d dg es f x hv
    · exact Or.inl ⟨hpres, hpend⟩
    · exact Or.inl hss
    · intro hcontra
      rw [hpres] at hcontra
      exact Bool.noConfusion hcontra
    · intro _
      have hsame : ∀ k, (assocGet (depStep f d ddeps st).graph k).isSome
          = (assocGet st.graph k).isSome := by
        intro k
        rw [hkeys k]
        by_cases he : k = d
        · subst he
          simp [hpres]
        · simp [he]
      rw [hpend, unseenCount_congr jsDoc st.graph _ hsame]
    · intro hnd
      unfold graphKeys
      rw [hgraph, keys_assocSet_existing st.graph d _ hpres]
      exact hnd
  · have hfresh : assocGet st.graph d = none := by
      cases h : assocGet st.graph d with
      | none => rfl
      | some v => rw [h] at hpres; simp at hpres
    have hpres2 : (assocGet st.graph d).isSome = false := by
      rw [hfresh]
      rfl
    have hA : assocGet (assocSet st.graph d ((ddeps.length : Int), [])) d
        = some ((ddeps.length : Int), []) := assocGet_assocSet_self st.graph d _
    have hgraph : (depStep f d ddeps st).graph
        = assocSet (assocSet st.graph d ((ddeps.length : Int), [])) d
            ((ddeps.length : Int), [] ++ [f]) := by
      unfold depStep
      rw [if_neg hpres]
      show addEdge (assocSet st.graph d ((ddeps.length : Int), [])) d f = _
      unfold addEdge
      rw [hA]
    have hpend : (depStep f d ddeps st).pending = st.pending ++ [d] := by
      unfold depStep
      rw [if_neg hpres]
      rfl
    have hss : (depStep f d ddeps st).startSort
        = if ddeps.length = 0 then st.startSort ++ [d] else st.startSort := by
      unfold depStep
      rw [if_neg hpres]
      rfl
    have hkeys : ∀ k, (assocGet (depStep f d ddeps st).graph k).isSome
        = ((assocGet st.graph k).isSome || k = d) := by
      intro k
      rw [hgraph, isSome_assocSet, isSome_assocSet]
      by_cases he : k = d
      · simp [he]
      · simp [he]
    have hdegD : deg (depStep f d ddeps st).graph d = ((ddeps.length : Int)) := by
      rw [hgraph, deg_assocSet_self]
    refine ⟨hkeys, ?_, ?_, ?_, ?_, ?_, ?_, ?_, ?_, ?_, ?_⟩
    · intro k hk
      have he : k ≠ d := by
        intro heq
        rw [heq, hpres2] at hk
        exact Bool.noConfusion hk
      rw [hgraph, deg_assocSet_ne _ _ _ _ he, deg_assocSet_ne _ _ _ _ he]
    · intro _
      exact hdegD
    · intro k he
      rw [hgraph, edgeList_assocSet_ne _ _ _ _ he, edgeList_assocSet_ne _ _ _ _ he]
    · rw [hgraph, edgeList_assocSet_self]
      unfold edgeList
      rw [hfresh]
      rfl
    · intro x
      rw [hgraph, totalInto_addEdge _ d _ [] f x hA,
        totalInto_addFresh st.graph d _ x hfresh]
    · exact Or.inr ⟨hpend, hpres2⟩
    · by_cases hlen : ddeps.length = 0
      · refine Or.inr ⟨?_, hpres2, ?_⟩
        · rw [hss, if_pos hlen]
        · rw [hdegD, hlen]
          rfl
      · refine Or.inl ?_
        rw [hss, if_neg hlen]
    · intro _ hdeg
      rw [hdegD] at hdeg
      have hlen : ddeps.length = 0 := by exact_mod_cast hdeg
      rw [hss, if_pos hlen]
      simp
    · intro hu
      have h1 := unseenCount_assocSet_fresh jsDoc st.graph d ((ddeps.length : Int), []) hu hfresh
      have h2 : unseenCount jsDoc (depStep f d ddeps st).graph
          = unseenCount jsDoc (assocSet st.graph d ((ddeps.length : Int), [])) := by
        rw [hgraph]
        apply unseenCount_congr
        intro k
        rw [isSome_assocSet, isSome_assocSet]
        rw [Bool.or_assoc, Bool.or_self]
      rw [hpend, h2]
      simp only [List.length_append]
      simp
      omega
    · intro hnd
      unfold graphKeys
      rw [hgraph, keys_assocSet_existing _ d _ (by rw [hA]; rfl),
        assocSet_eq_append st.graph d _ hfresh, List.map_append]
      simp only [List.map_cons, List.map_nil]
      rw [List.nodup_append]
      refine ⟨hnd, List.nodup_singleton d, ?_⟩
      intro a ha hb
      simp at hb
      subst hb
      have hsome := assocGet_isSome_of_mem_keys st.graph a ha
      rw [hpres2] at hsome
      exact Bool.noConfusion hsome

/-- The cumulative effect of `processDeps` over a whole dependency list, as
needed by the builder invariants. -/
structure PDSpec (jsDoc : Lookup) (f : String) (ds : List String)
    (st st2 : BuildSt) : Prop where
  keysMono : ∀ k, (assocGet st.graph k).isSome = true → (assocGet st2.graph k).isSome = true
  keysNew : ∀ k, (assocGet st2.graph k).isSome = true →
      (assocGet st.graph k).isSome = true ∨ k ∈ ds
  depsOk : ∀ d ∈ ds, (assocGet jsDoc d).isSome = true ∧ (assocGet st2.graph d).isSome = true
  pendMono : ∀ k ∈ st.pending, k ∈ st2.pending
  pendNew : ∀ k ∈ st2.pending, k ∈ st.pending ∨
      ((assocGet st.graph k).isSome = false ∧ k ∈ ds)
  newPend : ∀ k, (assocGet st2.graph k).isSome = true →
      (assocGet st.graph k).isSome = true ∨ k ∈ st2.pending
  degOld : ∀ k, (assocGet st.graph k).isSome = true → deg st2.graph k = deg st.graph k
  degNew : ∀ k, (assocGet st.graph k).isSome = false → (assocGet st2.graph k).isSome = true →
      deg st2.graph k = ((depsOfD jsDoc k).length : Int)
  edgesMono : ∀ k e, e ∈ edgeList st.graph k → e ∈ edgeList st2.graph k
  edgesNew : ∀ k e, e ∈ edgeList st2.graph k → e ∈ edgeList st.graph k ∨ e = f
  depEdge : ∀ d ∈ ds, f ∈ edgeList st2.graph d
  intoEq : ∀ x, totalInto st2.graph x
      = totalInto st.graph x + (if f = x then ds.length else 0)
  ssMono : ∀ k ∈ st.startSort, k ∈ st2.startSort
  ssNew : ∀ k ∈ st2.startSort, k ∈ st.startSort ∨
      ((assocGet st.graph k).isSome = false ∧ (assocGet st2.graph k).isSome = true
        ∧ deg st2.graph k = 0)
  ssZero : ∀ k, (assocGet st.graph k).isSome = false → (assocGet st2.graph k).isSome = true →
      deg st2.graph k = 0 → k ∈ st2.startSort
  measureLe : st2.pending.length + unseenCount jsDoc st2.graph
      ≤ st.pending.length + unseenCount jsDoc st.graph
  keysNodup : (graphKeys st.graph).Nodup → (graphKeys st2.graph).Nodup
  pendKey : (∀ k ∈ st.pending, (assocGet st.graph k).isSome = true) →
      ∀ k ∈ st2.pending, (assocGet st2.graph k).isSome = true
  pendNodup : (∀ k ∈ st.pending, (assocGet st.graph k).isSome = true) →
      st.pending.Nodup → st2.pending.Nodup
  ssKey : (∀ k ∈ st.startSort, (assocGet st.graph k).isSome = true) →
      ∀ k ∈ st2.startSort, (assocGet st2.graph k).isSome = true
  ssNodup : (∀ k ∈ st.startSort, (assocGet st.graph k).isSome = true) →
      st.startSort.Nodup → st2.startSort.Nodup

theorem PDSpec_refl (jsDoc : Lookup) (f : String) (st : BuildSt) :
    PDSpec jsDoc f [] st st := by
  refine ⟨?_, ?_, ?_, ?_, ?_, ?_, ?_, ?_, ?_, ?_, ?_, ?_, ?_, ?_, ?_, ?_, ?_, ?_, ?_, ?_, ?_⟩
  · exact fun k h => h
  · exact fun k h => Or.inl h
  · intro d hd; simp at hd
  · exact fun k h => h
  · exact fun k h => Or.inl h
  · exact fun k h => Or.inl h
  · exact fun k _ => rfl
  · intro k h1 h2; rw [h1] at h2; exact Bool.noConfusion h2
  · exact fun k e h => h
  · exact fun k e h => Or.inl h
  · intro d hd; simp at hd
  · intro x; simp
  · exact fun k h => h
  · exact fun k h => Or.inl h
  · intro k h1 h2; rw [h1] at h2; exact Bool.noConfusion h2
  · exact le_refl _
  · exact fun h => h
  · exact fun hp => hp
  · exact fun _ h => h
  · exact fun hs => hs
  · exact fun _ h => h

theorem PDSpec_cons (jsDoc : Lookup) (f d : String) (ddeps : List String)
    (ds : List String) (st st2 : BuildSt)
    (hd : assocGet jsDoc d = some ddeps)
    (SF : StepFacts jsDoc f d ddeps st (depStep f d ddeps st))
    (PD : PDSpec jsDoc f ds (depStep f d ddeps st) st2) :
    PDSpec jsDoc f (d :: ds) st st2 := by
  set st1 := depStep f d ddeps st with hst1
  have hKeyUp : ∀ k, (assocGet st.graph k).isSome = true →
      (assocGet st1.graph k).isSome = true := by
    intro k hk
    rw [SF.keys k, hk]
    rfl
  have hKeyD : (assocGet st1.graph d).isSome = true := by
    rw [SF.keys d]
    simp
  have hKeyDown : ∀ k, (assocGet st1.graph k).isSome = false →
      (assocGet st.graph k).isSome = false := by
    intro k hk
    cases h : (assocGet st.graph k).isSome with
    | false => rfl
    | true => rw [hKeyUp k h] at hk; exact Bool.noConfusion hk
  have hKeyCases : ∀ k, (assocGet st1.graph k).isSome = true →
      (assocGet st.graph k).isSome = true ∨ k = d := by
    intro k hk
    rw [SF.keys k] at hk
    rcases Bool.or_eq_true_iff.mp hk with h | h
    · exact Or.inl h
    · exact Or.inr (by simpa using h)
  have hPendUp : ∀ k ∈ st.pending, k ∈ st1.pending := by
    intro k hk
    rcases SF.pendEq with ⟨_, hpe⟩ | ⟨hpe, _⟩
    · rw [hpe]; exact hk
    · rw [hpe]; exact List.mem_append_left _ hk
  have hSSUp : ∀ k ∈ st.startSort, k ∈ st1.startSort := by
    intro k hk
    rcases SF.ssEq with hse | ⟨hse, _, _⟩
    · rw [hse]; exact hk
    · rw [hse]; exact List.mem_append_left _ hk
  refine ⟨?_, ?_, ?_, ?_, ?_, ?_, ?_, ?_, ?_, ?_, ?_, ?_, ?_, ?_, ?_, ?_, ?_, ?_, ?_, ?_, ?_⟩
  · exact fun k hk => PD.keysMono k (hKeyUp k hk)
  · intro k hk
    rcases PD.keysNew k hk with h | h
    · rcases hKeyCases k h with h2 | h2
      · exact Or.inl h2
      · exact Or.inr (h2 ▸ List.mem_cons_self d ds)
    · exact Or.inr (List.mem_cons_of_mem d h)
  · intro d2 hd2
    rcases List.mem_cons.mp hd2 with h | h
    · subst h
      exact ⟨by rw [hd]; rfl, PD.keysMono d2 hKeyD⟩
    · exact PD.depsOk d2 h
  · exact fun k hk => PD.pendMono k (hPendUp k hk)
  · intro k hk
    rcases PD.pendNew k hk with h | ⟨h1, h2⟩
    · rcases SF.pendEq with ⟨_, hpe⟩ | ⟨hpe, hfr⟩
      · rw [hpe] at h
        exact Or.inl h
      · rw [hpe] at h
        rcases List.mem_append.mp h with h2 | h2
        · exact Or.inl h2
        · simp at h2
          subst h2
          exact Or.inr ⟨hfr, List.mem_cons_self k ds⟩
    · exact Or.inr ⟨hKeyDown k h1, List.mem_cons_of_mem d h2⟩
  · intro k hk
    rcases PD.newPend k hk with h | h
    · rcases hKeyCases k h with h2 | h2
      · exact Or.inl h2
      · subst h2
        cases hpres : (assocGet st.graph k).isSome with
        | true => exact Or.inl rfl
        | false =>
            rcases SF.pendEq with ⟨hp, _⟩ | ⟨hpe, _⟩
            · rw [hpres] at hp; exact Bool.noConfusion hp
            · refine Or.inr (PD.pendMono k ?_)
              rw [hpe]
              simp
    · exact Or.inr h
  · intro k hk
    rw [PD.degOld k (hKeyUp k hk)]
    exact SF.degOld k hk
  · intro k h1 h2
    cases hmid : (assocGet st1.graph k).isSome with
    | false => exact PD.degNew k hmid h2
    | true =>
        rcases hKeyCases k hmid with h3 | h3
        · rw [h3] at h1; exact Bool.noConfusion h1
        · subst h3
          rw [PD.degOld k hmid, SF.degNewD h1]
          unfold depsOfD
          rw [hd]
          rfl
  · intro k e he
    refine PD.edgesMono k e ?_
    by_cases hkd : k = d
    · subst hkd
      rw [SF.edgeD]
      exact List.mem_append_left _ he
    · rw [SF.edgeNe k hkd]
      exact he
  · intro k e he
    rcases PD.edgesNew k e he with h | h
    · by_cases hkd : k = d
      · subst hkd
        rw [SF.edgeD] at h
        rcases List.mem_append.mp h with h2 | h2
        · exact Or.inl h2
        · simp at h2
          exact Or.inr h2
      · rw [SF.edgeNe k hkd] at h
        exact Or.inl h
    · exact Or.inr h
  · intro d2 hd2
    rcases List.mem_cons.mp hd2 with h | h
    · subst h
      refine PD.edgesMono d2 f ?_
      rw [SF.edgeD]
      exact List.mem_append_right _ (by simp)
    · exact PD.depEdge d2 h
  · intro x
    rw [PD.intoEq x, SF.into x]
    by_cases hfx : f = x
    · simp [hfx]
      omega
    · simp [hfx]
  · exact fun k hk => PD.ssMono k (hSSUp k hk)
  · intro k hk
    rcases PD.ssNew k hk with h | ⟨h1, h2, h3⟩
    · rcases SF.ssEq with hse | ⟨hse, hfr, hdeg⟩
      · rw [hse] at h
        exact Or.inl h
      · rw [hse] at h
        rcases List.mem_append.mp h with h2 | h2
        · exact Or.inl h2
        · simp at h2
          subst h2
          refine Or.inr ⟨hfr, PD.keysMono k hKeyD, ?_⟩
          rw [PD.degOld k hKeyD]
          exact hdeg
    · exact Or.inr ⟨hKeyDown k h1, h2, h3⟩
  · intro k h1 h2 h3
    cases hmid : (assocGet st1.graph k).isSome with
    | false => exact PD.ssZero k hmid h2 h3
    | true =>
        rcases hKeyCases k hmid with h4 | h4
        · rw [h4] at h1; exact Bool.noConfusion h1
        · subst h4
          have hdeg1 : deg st1.graph k = 0 := by
            rw [← PD.degOld k hmid]
            exact h3
          exact PD.ssMono k (SF.ssZero h1 hdeg1)
  · calc st2.pending.length + unseenCount jsDoc st2.graph
        ≤ st1.pending.length + unseenCount jsDoc st1.graph := PD.measureLe
      _ ≤ st.pending.length + unseenCount jsDoc st.graph :=
          SF.measureLe (by rw [hd]; rfl)
  · exact fun h => PD.keysNodup (SF.keysND h)
  · intro hp
    refine PD.pendKey ?_
    intro k hk
    rcases SF.pendEq with ⟨_, hpe⟩ | ⟨hpe, _⟩
    · rw [hpe] at hk
      exact hKeyUp k (hp k hk)
    · rw [hpe] at hk
      rcases List.mem_append.mp hk with h2 | h2
      · exact hKeyUp k (hp k h2)
      · simp at h2
        subst h2
        exact hKeyD
  · intro hp hnd
    refine PD.pendNodup ?_ ?_
    · intro k hk
      rcases SF.pendEq with ⟨_, hpe⟩ | ⟨hpe, _⟩
      · rw [hpe] at hk
        exact hKeyUp k (hp k hk)
      · rw [hpe] at hk
        rcases List.mem_append.mp hk with h2 | h2
        · exact hKeyUp k (hp k h2)
        · simp at h2
          subst h2
          exact hKeyD
    · rcases SF.pendEq with ⟨_, hpe⟩ | ⟨hpe, hfr⟩
      · rw [hpe]
        exact hnd
      · rw [hpe]
        rw [List.nodup_append]
        refine ⟨hnd, List.nodup_singleton d, ?_⟩
        intro a ha hb
        simp at hb
        subst hb
        have := hp a ha
        rw [hfr] at this
        exact Bool.noConfusion this
  · intro hs
    refine PD.ssKey ?_
    intro k hk
    rcases SF.ssEq with hse | ⟨hse, _, _⟩
    · rw [hse] at hk
      exact hKeyUp k (hs k hk)
    · rw [hse] at hk
      rcases List.mem_append.mp hk with h2 | h2
      · exact hKeyUp k (hs k h2)
      · simp at h2
        subst h2
        exact hKeyD
  · intro hs hnd
    refine PD.ssNodup ?_ ?_
    · intro k hk
      rcases SF.ssEq with hse | ⟨hse, _, _⟩
      · rw [hse] at hk
        exact hKeyUp k (hs k hk)
      · rw [hse] at hk
        rcases List.mem_append.mp hk with h2 | h2
        · exact hKeyUp k (hs k h2)
        · simp at h2
          subst h2
          exact hKeyD
    · rcases SF.ssEq with hse | ⟨hse, hfr, _⟩
      · rw [hse]
        exact hnd
      · rw [hse]
        rw [List.nodup_append]
        refine ⟨hnd, List.nodup_singleton d, ?_⟩
        intro a ha hb
        simp at hb
        subst hb
        have := hs a ha
        rw [hfr] at this
        exact Bool.noConfusion this

theorem processDeps_ok (jsDoc : Lookup) (f : String) :
    ∀ (ds : List String) (st st2 : BuildSt),
      processDeps jsDoc f st ds = .ok st2 → PDSpec jsDoc f ds st st2 := by
  intro ds
  induction ds with
  | nil =>
      intro st st2 h
      simp only [processDeps] at h
      injection h with h2
      subst h2
      exact PDSpec_refl jsDoc f st
  | cons d ds ih =>
      intro st st2 h
      simp only [processDeps] at h
      cases hd : assocGet jsDoc d with
      | none => rw [hd] at h; exact Except.noConfusion h
      | some ddeps =>
          rw [hd] at h
          exact PDSpec_cons jsDoc f d ddeps ds st st2 hd
            (depStep_facts jsDoc f d ddeps st) (ih _ st2 h)

/-- A failing `processDeps` always reports a dependency of its list that is
absent from the lookup. -/
theorem processDeps_error (jsDoc : Lookup) (f : String) :
    ∀ (ds : List String) (st : BuildSt) (e : DepError),
      processDeps jsDoc f st ds = .error e →
      ∃ d ∈ ds, assocGet jsDoc d = none ∧ e = .missing f d := by
  intro ds
  induction ds with
  | nil =>
      intro st e h
      simp only [processDeps] at h
      exact Except.noConfusion h
  | cons d ds ih =>
      intro st e h
      simp only [processDeps] at h
      cases hd : assocGet jsDoc d with
      | none =>
          rw [hd] at h
          injection h with h2
          exact ⟨d, List.mem_cons_self d ds, hd, h2.symm⟩
      | some ddeps =>
          rw [hd] at h
          obtain ⟨d2, hd2, hn, he⟩ := ih _ e h
          exact ⟨d2, List.mem_cons_of_mem d hd2, hn, he⟩

/-- Invariant of the discovery loop.  Graph members are universe members
reachable from the start set; queued members are graph members; a member no
longer queued has been processed: its dependencies are checked and present,
its reverse edges recorded, and the edges into it complete; degrees always
equal declared-dependency counts; the start list is exactly the
zero-in-degree members. -/
structure BInv (jsDoc : Lookup) (starts : List String) (st : BuildSt) : Prop where
  inUniv : ∀ k, (assocGet st.graph k).isSome = true → (assocGet jsDoc k).isSome = true
  pendKey : ∀ k ∈ st.pending, (assocGet st.graph k).isSome = true
  reach : ∀ k, (assocGet st.graph k).isSome = true → Reachable jsDoc starts k
  closed : ∀ k, (assocGet st.graph k).isSome = true → k ∉ st.pending →
      ∀ d ∈ depsOfD jsDoc k, (assocGet st.graph d).isSome = true
  degLen : ∀ k, (assocGet st.graph k).isSome = true →
      deg st.graph k = ((depsOfD jsDoc k).length : Int)
  intoDone : ∀ x, (assocGet st.graph x).isSome = true → x ∉ st.pending →
      totalInto st.graph x = (depsOfD jsDoc x).length
  intoPend : ∀ x ∈ st.pending, totalInto st.graph x = 0
  intoAbsent : ∀ x, (assocGet st.graph x).isSome = false → totalInto st.graph x = 0
  depEdge : ∀ x, (assocGet st.graph x).isSome = true → x ∉ st.pending →
      ∀ d ∈ depsOfD jsDoc x, x ∈ edgeList st.graph d
  edgeTarget : ∀ d k, k ∈ edgeList st.graph d → (assocGet st.graph k).isSome = true
  keysNodup : (graphKeys st.graph).Nodup
  pendNodup : st.pending.Nodup
  ssIff : ∀ k, k ∈ st.startSort ↔
      ((assocGet st.graph k).isSome = true ∧ deg st.graph k = 0)
  ssNodup : st.startSort.Nodup

theorem BInv_step (jsDoc : Lookup) (starts : List String) (f : String)
    (rest fdeps : List String) (st st2 : BuildSt)
    (hinv : BInv jsDoc starts st) (hpend : st.pending = f :: rest)
    (hf : assocGet jsDoc f = some fdeps)
    (hok : processDeps jsDoc f { st with pending := rest } fdeps = .ok st2) :
    BInv jsDoc starts st2 := by
  have PD := processDeps_ok jsDoc f fdeps _ st2 hok
  have hfmem : f ∈ st.pending := by rw [hpend]; exact List.mem_cons_self f rest
  have hfkey : (assocGet st.graph f).isSome = true := hinv.pendKey f hfmem
  have hfdeps : depsOfD jsDoc f = fdeps := by unfold depsOfD; rw [hf]; rfl
  have hfnotrest : f ∉ rest := by
    have := hinv.pendNodup
    rw [hpend] at this
    exact (List.nodup_cons.mp this).1
  have hrestpend : ∀ k ∈ rest, k ∈ st.pending := by
    intro k hk
    rw [hpend]
    exact List.mem_cons_of_mem f hk
  refine ⟨?_, ?_, ?_, ?_, ?_, ?_, ?_, ?_, ?_, ?_, ?_, ?_, ?_, ?_⟩
  · intro k hk
    rcases PD.keysNew k hk with h | h
    · exact hinv.inUniv k h
    · exact (PD.depsOk k h).1
  · exact PD.pendKey (fun k hk => hinv.pendKey k (hrestpend k hk))
  · intro k hk
    rcases PD.keysNew k hk with h | h
    · exact hinv.reach k h
    · exact Reachable.step (hinv.reach f hfkey) (hfdeps ▸ h)
  · intro k hk hnp d hd
    cases hold : (assocGet st.graph k).isSome with
    | true =>
        by_cases hkrest : k ∈ rest
        · exact absurd (PD.pendMono k hkrest) hnp
        · by_cases hkf : k = f
          · subst hkf
            rw [hfdeps] at hd
            exact (PD.depsOk d hd).2
          · have hknp : k ∉ st.pending := by
              rw [hpend]
              intro hm
              rcases List.mem_cons.mp hm with h | h
              · exact hkf h
              · exact hkrest h
            exact PD.keysMono d (hinv.closed k hold hknp d hd)
    | false =>
        rcases PD.newPend k hk with h | h
        · rw [hold] at h; exact Bool.noConfusion h
        · exact absurd h hnp
  · intro k hk
    cases hold : (assocGet st.graph k).isSome with
    | true => rw [PD.degOld k hold]; exact hinv.degLen k hold
    | false => exact PD.degNew k hold hk
  · intro x hx hnp
    cases hold : (assocGet st.graph x).isSome with
    | true =>
        by_cases hxf : x = f
        · subst hxf
          rw [PD.intoEq x, if_pos rfl, hinv.intoPend x hfmem, hfdeps]
          simp
        · have hnf : ¬f = x := fun hh => hxf hh.symm
          rw [PD.intoEq x, if_neg hnf]
          by_cases hxrest : x ∈ rest
          · exact absurd (PD.pendMono x hxrest) hnp
          · have hxnp : x ∉ st.pending := by
              rw [hpend]
              intro hm
              rcases List.mem_cons.mp hm with h | h
              · exact hxf h
              · exact hxrest h
            rw [hinv.intoDone x hold hxnp]
            simp
    | false =>
        rcases PD.newPend x hx with h | h
        · rw [hold] at h; exact Bool.noConfusion h
        · exact absurd h hnp
  · intro x hx
    rcases PD.pendNew x hx with h | ⟨h1, _⟩
    · have hxf : x ≠ f := fun hh => hfnotrest (hh ▸ h)
      have hnf : ¬f = x := fun hh => hxf hh.symm
      rw [PD.intoEq x, if_neg hnf, hinv.intoPend x (hrestpend x h)]
    · have hxf : x ≠ f := by
        intro hh
        rw [hh, hfkey] at h1
        exact Bool.noConfusion h1
      have hnf : ¬f = x := fun hh => hxf hh.symm
      rw [PD.intoEq x, if_neg hnf, hinv.intoAbsent x h1]
  · intro x hx
    have hold : (assocGet st.graph x).isSome = false := by
      cases h : (assocGet st.graph x).isSome with
      | false => rfl
      | true => rw [PD.keysMono x h] at hx; exact Bool.noConfusion hx
    have hxf : x ≠ f := by
      intro hh
      rw [hh, hfkey] at hold
      exact Bool.noConfusion hold
    have hnf : ¬f = x := fun hh => hxf hh.symm
    rw [PD.intoEq x, if_neg hnf, hinv.intoAbsent x hold]
  · intro x hx hnp d hd
    cases hold : (assocGet st.graph x).isSome with
    | true =>
        by_cases hxrest : x ∈ rest
        · exact absurd (PD.pendMono x hxrest) hnp
        · by_cases hxf : x = f
          · subst hxf
            rw [hfdeps] at hd
            exact PD.depEdge d hd
          · have hxnp : x ∉ st.pending := by
              rw [hpend]
              intro hm
              rcases List.mem_cons.mp hm with h | h
              · exact hxf h
              · exact hxrest h
            exact PD.edgesMono d x (hinv.depEdge x hold hxnp d hd)
    | false =>
        rcases PD.newPend x hx with h | h
        · rw [hold] at h; exact Bool.noConfusion h
        · exact absurd h hnp
  · intro d k hk
    rcases PD.edgesNew d k hk with h | h
    · exact PD.keysMono k (hinv.edgeTarget d k h)
    · subst h
      exact PD.keysMono k hfkey
  · exact PD.keysNodup hinv.keysNodup
  · refine PD.pendNodup (fun k hk => hinv.pendKey k (hrestpend k hk)) ?_
    have := hinv.pendNodup
    rw [hpend] at this
    exact (List.nodup_cons.mp this).2
  · intro k
    constructor
    · intro hk
      rcases PD.ssNew k hk with h | ⟨h1, h2, h3⟩
      · obtain ⟨hsome, hdeg⟩ := (hinv.ssIff k).mp h
        exact ⟨PD.keysMono k hsome, by rw [PD.degOld k hsome]; exact hdeg⟩
      · exact ⟨h2, h3⟩
    · intro ⟨hsome, hdeg⟩
      cases hold : (assocGet st.graph k).isSome with
      | true =>
          have hdeg0 : deg st.graph k = 0 := by rw [← PD.degOld k hold]; exact hdeg
          exact PD.ssMono k ((hinv.ssIff k).mpr ⟨hold, hdeg0⟩)
      | false => exact PD.ssZero k hold hsome hdeg
  · refine PD.ssNodup ?_ hinv.ssNodup
    intro k hk
    exact ((hinv.ssIff k).mp hk).1

/-- Properties of a finished build: reachable closure discovered, every
degree equals both the declared-dependency count and the number of recorded
edges into the node, reverse edges complete, and the start list exactly the
zero-degree nodes. -/
structure BuildOut (jsDoc : Lookup) (starts : List String) (g : Graph)
    (ss : List String) : Prop where
  inUniv : ∀ k, (assocGet g k).isSome = true → (assocGet jsDoc k).isSome = true
  reach : ∀ k, (assocGet g k).isSome = true → Reachable jsDoc starts k
  closed : ∀ k, (assocGet g k).isSome = true →
      ∀ d ∈ depsOfD jsDoc k, (assocGet g d).isSome = true
  degLen : ∀ k, (assocGet g k).isSome = true →
      deg g k = ((depsOfD jsDoc k).length : Int)
  intoEq : ∀ x, (assocGet g x).isSome = true → totalInto g x = (depsOfD jsDoc x).length
  intoAbsent : ∀ x, (assocGet g x).isSome = false → totalInto g x = 0
  depEdge : ∀ x, (assocGet g x).isSome = true →
      ∀ d ∈ depsOfD jsDoc x, x ∈ edgeList g d
  edgeTarget : ∀ d k, k ∈ edgeList g d → (assocGet g k).isSome = true
  keysNodup : (graphKeys g).Nodup
  ssIff : ∀ k, k ∈ ss ↔ ((assocGet g k).isSome = true ∧ deg g k = 0)
  ssNodup : ss.Nodup

theorem buildLoop_ok (jsDoc : Lookup) (starts : List String) :
    ∀ (fuel : Nat) (st : BuildSt) (g : Graph) (ss : List String),
      BInv jsDoc starts st → buildLoop jsDoc fuel st = .ok (g, ss) →
      BuildOut jsDoc starts g ss
        ∧ (∀ k, (assocGet st.graph k).isSome = true → (assocGet g k).isSome = true) := by
  intro fuel
  induction fuel with
  | zero => intro st g ss _ h; exact Except.noConfusion h
  | succ fuel ih =>
      intro st g ss hinv h
      obtain ⟨sg, sp, sss⟩ := st
      cases sp with
      | nil =>
          simp only [buildLoop] at h
          injection h with h2
          have hg : sg = g := congrArg Prod.fst h2
          have hss : sss = ss := congrArg Prod.snd h2
          subst hg hss
          have hnp : ∀ x : String, x ∉ (⟨sg, [], sss⟩ : BuildSt).pending := by
            intro x hx
            exact List.not_mem_nil x hx
          refine ⟨⟨hinv.inUniv, hinv.reach, ?_, hinv.degLen, ?_, hinv.intoAbsent, ?_,
              hinv.edgeTarget, hinv.keysNodup, hinv.ssIff, hinv.ssNodup⟩,
            fun k hk => hk⟩
          · exact fun k hk => hinv.closed k hk (hnp k)
          · exact fun x hx => hinv.intoDone x hx (hnp x)
          · exact fun x hx => hinv.depEdge x hx (hnp x)
      | cons f rest =>
          simp only [buildLoop] at h
          cases hf : assocGet jsDoc f with
          | none => rw [hf] at h; exact Except.noConfusion h
          | some fdeps =>
              rw [hf] at h
              have h2 : (match processDeps jsDoc f ⟨sg, rest, sss⟩ fdeps with
                  | Except.error e => Except.error e
                  | Except.ok st2 => buildLoop jsDoc fuel st2) = Except.ok (g, ss) := h
              cases hpd : processDeps jsDoc f ⟨sg, rest, sss⟩ fdeps with
              | error e => rw [hpd] at h2; exact Except.noConfusion h2
              | ok st2 =>
                  rw [hpd] at h2
                  have hinv2 := BInv_step jsDoc starts f rest fdeps ⟨sg, f :: rest, sss⟩
                    st2 hinv rfl hf hpd
                  obtain ⟨hout, hmono⟩ := ih st2 g ss hinv2 h2
                  refine ⟨hout, ?_⟩
                  intro k hk
                  exact hmono k ((processDeps_ok jsDoc f fdeps _ st2 hpd).keysMono k hk)

theorem buildLoop_error (jsDoc : Lookup) (starts : List String) :
    ∀ (fuel : Nat) (st : BuildSt) (e : DepError),
      BInv jsDoc starts st → buildLoop jsDoc fuel st = .error e →
      e = .fuelExhausted ∨
        ∃ x z, Reachable jsDoc starts x ∧ z ∈ depsOfD jsDoc x
          ∧ assocGet jsDoc z = none ∧ e = .missing x z := by
  intro fuel
  induction fuel with
  | zero =>
      intro st e _ h
      injection h with h2
      exact Or.inl h2.symm
  | succ fuel ih =>
      intro st e hinv h
      obtain ⟨sg, sp, sss⟩ := st
      cases sp with
      | nil =>
          simp only [buildLoop] at h
          exact Except.noConfusion h
      | cons f rest =>
          simp only [buildLoop] at h
          have hfmem : f ∈ (⟨sg, f :: rest, sss⟩ : BuildSt).pending :=
            List.mem_cons_self f rest
          cases hf : assocGet jsDoc f with
          | none =>
              exact absurd (hinv.inUniv f (hinv.pendKey f hfmem)) (by rw [hf]; simp)
          | some fdeps =>
              rw [hf] at h
              have hb : (match processDeps jsDoc f ⟨sg, rest, sss⟩ fdeps with
                  | Except.error e => Except.error e
                  | Except.ok st2 => buildLoop jsDoc fuel st2) = Except.error e := h
              cases hpd : processDeps jsDoc f ⟨sg, rest, sss⟩ fdeps with
              | error e2 =>
                  rw [hpd] at hb
                  injection hb with h2
                  subst h2
                  obtain ⟨d, hd, hnone, he⟩ := processDeps_error jsDoc f fdeps _ e2 hpd
                  refine Or.inr ⟨f, d, hinv.reach f (hinv.pendKey f hfmem), ?_, hnone, he⟩
                  unfold depsOfD
                  rw [hf]
                  exact hd
              | ok st2 =>
                  rw [hpd] at hb
                  exact ih st2 e (BInv_step jsDoc starts f rest fdeps ⟨sg, f :: rest, sss⟩
                    st2 hinv rfl hf hpd) hb

theorem buildLoop_no_fuel_exhaustion (jsDoc : Lookup) :
    ∀ (fuel : Nat) (st : BuildSt),
      st.pending.length + unseenCount jsDoc st.graph < fuel →
      buildLoop jsDoc fuel st ≠ .error .fuelExhausted := by
  intro fuel
  induction fuel with
  | zero => intro st hm; omega
  | succ fuel ih =>
      intro st hm h
      obtain ⟨sg, sp, sss⟩ := st
      cases sp with
      | nil =>
          simp only [buildLoop] at h
          exact Except.noConfusion h
      | cons f rest =>
          simp only [buildLoop] at h
          cases hf : assocGet jsDoc f with
          | none =>
              rw [hf] at h
              injection h with h2
              exact DepError.noConfusion h2
          | some fdeps =>
              rw [hf] at h
              have hb : (match processDeps jsDoc f ⟨sg, rest, sss⟩ fdeps with
                  | Except.error e => Except.error e
                  | Except.ok st2 => buildLoop jsDoc fuel st2)
                  = Except.error DepError.fuelExhausted := h
              cases hpd : processDeps jsDoc f ⟨sg, rest, sss⟩ fdeps with
              | error e2 =>
                  rw [hpd] at hb
                  injection hb with h2
                  obtain ⟨d, _, _, he⟩ := processDeps_error jsDoc f fdeps _ e2 hpd
                  rw [he] at h2
                  exact DepError.noConfusion h2
              | ok st2 =>
                  rw [hpd] at hb
                  have hme := (processDeps_ok jsDoc f fdeps _ st2 hpd).measureLe
                  refine ih st2 ?_ hb
                  simp only at hme hm
                  simp only [List.length_cons] at hm
                  omega

theorem isSome_false_eq_none {A : Type} {o : Option A} (h : o.isSome = false) :
    o = none := by
  cases o with
  | none => rfl
  | some v => simp at h

theorem assocGet_keyed_map {A : Type} (v : String → A) :
    ∀ (ss : List String) (k : String), k ∈ ss →
      assocGet (ss.map (fun s => (s, v s))) k = some (v k) := by
  intro ss
  induction ss with
  | nil => intro k hk; simp at hk
  | cons s t ih =>
      intro k hk
      by_cases he : s = k
      · subst he
        simp [assocGet]
      · have hk2 : k ∈ t := by
          rcases List.mem_cons.mp hk with h | h
          · exact absurd h.symm he
          · exact h
        simp only [List.map_cons, assocGet, if_neg he]
        exact ih k hk2

theorem keyed_map_keys {A : Type} (v : String → A) (ss : List String) :
    (ss.map (fun s => (s, v s))).map Prod.fst = ss := by
  induction ss with
  | nil => rfl
  | cons s t ih => simp [ih]

theorem totalInto_keyed_nil (w : String → Int × List String)
    (hw : ∀ s, (w s).2 = []) :
    ∀ (ss : List String) (x : String),
      totalInto (ss.map (fun s => (s, w s))) x = 0 := by
  intro ss
  induction ss with
  | nil => intro x; rfl
  | cons s t ih =>
      intro x
      simp only [List.map_cons, totalInto, List.sum_cons]
      have := ih x
      unfold totalInto at this
      rw [hw s]
      simpa using this

theorem addStarts_strong (jsDoc : Lookup) :
    ∀ (ss : List String) (st st2 : BuildSt),
      ss.Nodup → (∀ s ∈ ss, (assocGet st.graph s).isSome = false) →
      addStarts jsDoc st ss = .ok st2 →
      st2.graph = st.graph
          ++ ss.map (fun s => (s, (((depsOfD jsDoc s).length : Int), ([] : List String))))
        ∧ st2.pending = st.pending ++ ss
        ∧ st2.startSort = st.startSort
            ++ ss.filter (fun s => (depsOfD jsDoc s).length == 0)
        ∧ (∀ s ∈ ss, (assocGet jsDoc s).isSome = true) := by
  intro ss
  induction ss with
  | nil =>
      intro st st2 _ _ h
      simp only [addStarts] at h
      injection h with h2
      subst h2
      refine ⟨by simp, by simp, by simp, ?_⟩
      intro s hs
      simp at hs
  | cons s t ih =>
      intro st st2 hnd hfr h
      simp only [addStarts] at h
      cases hs : assocGet jsDoc s with
      | none => rw [hs] at h; exact Except.noConfusion h
      | some deps =>
          rw [hs] at h
          have hb : addStarts jsDoc (addVertex st s deps) t = .ok st2 := h
          have hdeps : depsOfD jsDoc s = deps := by
            unfold depsOfD
            rw [hs]
            rfl
          have hfrs : assocGet st.graph s = none :=
            isSome_false_eq_none (hfr s (List.mem_cons_self s t))
          have hgA : (addVertex st s deps).graph
              = st.graph ++ [(s, ((deps.length : Int), ([] : List String)))] := by
            unfold addVertex
            exact assocSet_eq_append st.graph s _ hfrs
          have hfr2 : ∀ x ∈ t, (assocGet (addVertex st s deps).graph x).isSome = false := by
            intro x hx
            have hxs : ¬x = s := by
              intro he
              subst he
              exact (List.nodup_cons.mp hnd).1 hx
            unfold addVertex
            rw [isSome_assocSet]
            simp [hxs]
            exact isSome_false_eq_none (hfr x (List.mem_cons_of_mem s hx))
          obtain ⟨hg, hp, hss2, hu⟩ := ih (addVertex st s deps) st2
            (List.nodup_cons.mp hnd).2 hfr2 hb
          refine ⟨?_, ?_, ?_, ?_⟩
          · rw [hg, hgA, List.append_assoc]
            simp [hdeps]
          · rw [hp]
            show (st.pending ++ [s]) ++ t = _
            rw [List.append_assoc]
            rfl
          · rw [hss2]
            unfold addVertex
            simp only []
            by_cases hlen : deps.length = 0
            · rw [if_pos hlen, List.append_assoc]
              congr 1
              rw [List.filter_cons]
              rw [if_pos (by simp [hdeps, hlen])]
              rfl
            · rw [if_neg hlen]
              congr 1
              rw [List.filter_cons]
              rw [if_neg (by simp [hdeps, hlen])]
          · intro s2 hs2
            rcases List.mem_cons.mp hs2 with h2 | h2
            · subst h2
              rw [hs]
              rfl
            · exact hu s2 h2

theorem addStarts_isSome_ok (jsDoc : Lookup) :
    ∀ (ss : List String) (st : BuildSt),
      (∀ s ∈ ss, (assocGet jsDoc s).isSome = true) →
      ∃ st2, addStarts jsDoc st ss = .ok st2 := by
  intro ss
  induction ss with
  | nil => intro st _; exact ⟨st, rfl⟩
  | cons s t ih =>
      intro st hsome
      have hs := hsome s (List.mem_cons_self s t)
      obtain ⟨deps, hdeps⟩ := Option.isSome_iff_exists.mp hs
      obtain ⟨st2, hst2⟩ := ih (addVertex st s deps)
        (fun x hx => hsome x (List.mem_cons_of_mem s hx))
      refine ⟨st2, ?_⟩
      simp only [addStarts]
      rw [hdeps]
      exact hst2

/-- The state after seeding the builder from the empty state satisfies the
discovery invariant. -/
theorem BInv_init (jsDoc : Lookup) (starts : List String) (st0 : BuildSt)
    (hnd : starts.Nodup)
    (h : addStarts jsDoc ⟨[], [], []⟩ starts = .ok st0) :
    BInv jsDoc starts st0 := by
  obtain ⟨hg, hp, hss, hu⟩ := addStarts_strong jsDoc starts ⟨[], [], []⟩ st0 hnd
    (fun s _ => rfl) h
  simp only [List.nil_append] at hg hp hss
  have hkeys : ∀ k, (assocGet st0.graph k).isSome = true ↔ k ∈ starts := by
    intro k
    constructor
    · intro hk
      have := mem_keys_of_assocGet _ _ hk
      rw [hg, keyed_map_keys] at this
      exact this
    · intro hk
      rw [hg, assocGet_keyed_map _ starts k hk]
      rfl
  have hval : ∀ k ∈ starts, assocGet st0.graph k
      = some (((depsOfD jsDoc k).length : Int), ([] : List String)) := by
    intro k hk
    rw [hg]
    exact assocGet_keyed_map _ starts k hk
  have hdeg : ∀ k ∈ starts, deg st0.graph k = ((depsOfD jsDoc k).length : Int) := by
    intro k hk
    unfold deg
    rw [hval k hk]
    rfl
  have hedge : ∀ d, edgeList st0.graph d = [] := by
    intro d
    unfold edgeList
    by_cases hd : d ∈ starts
    · rw [hval d hd]
      rfl
    · have hnone : assocGet st0.graph d = none := by
        rw [hg]
        apply assocGet_eq_none_of_not_mem
        rw [keyed_map_keys]
        exact hd
      rw [hnone]
      rfl
  have hinto : ∀ x, totalInto st0.graph x = 0 := by
    intro x
    rw [hg]
    exact totalInto_keyed_nil _ (fun s => rfl) starts x
  refine ⟨?_, ?_, ?_, ?_, ?_, ?_, ?_, ?_, ?_, ?_, ?_, ?_, ?_, ?_⟩
  · intro k hk
    exact hu k ((hkeys k).mp hk)
  · intro k hk
    rw [hp] at hk
    exact (hkeys k).mpr hk
  · intro k hk
    exact Reachable.base ((hkeys k).mp hk)
  · intro k hk hnp
    exact absurd (by rw [hp]; exact (hkeys k).mp hk) hnp
  · intro k hk
    exact hdeg k ((hkeys k).mp hk)
  · intro x hx hnp
    exact absurd (by rw [hp]; exact (hkeys x).mp hx) hnp
  · intro x _
    exact hinto x
  · intro x _
    exact hinto x
  · intro x hx hnp
    exact absurd (by rw [hp]; exact (hkeys x).mp hx) hnp
  · intro d k hk
    rw [hedge d] at hk
    exact absurd hk (List.not_mem_nil k)
  · unfold graphKeys
    rw [hg, keyed_map_keys]
    exact hnd
  · rw [hp]
    exact hnd
  · intro k
    rw [hss]
    constructor
    · intro hk
      have hmem := List.mem_of_mem_filter hk
      have hpred := List.of_mem_filter hk
      simp at hpred
      refine ⟨(hkeys k).mpr hmem, ?_⟩
      rw [hdeg k hmem, hpred]
      rfl
    · intro ⟨hsome, hdeg0⟩
      have hmem := (hkeys k).mp hsome
      rw [List.mem_filter]
      refine ⟨hmem, ?_⟩
      rw [hdeg k hmem] at hdeg0
      simp at hdeg0 ⊢
      exact hdeg0
  · rw [hss]
    exact hnd.filter _

/-- Every node reachable from the start set is discovered by a successful
build. -/
theorem reachable_in_graph (jsDoc : Lookup) (starts : List String) (g : Graph)
    (ss : List String) (hout : BuildOut jsDoc starts g ss)
    (hstarts : ∀ s ∈ starts, (assocGet g s).isSome = true) :
    ∀ x, Reachable jsDoc starts x → (assocGet g x).isSome = true := by
  intro x hx
  induction hx with
  | base hs => exact hstarts _ hs
  | step _ hd ih => exact hout.closed _ ih _ hd

/-- C6: on every dependency lookup whose start set is in the universe and in
which some reachable file declares a dependency absent from the universe,
`build_dependency_graph` raises `MissingDependency` carrying such a
(file, dependency) pair — during discovery, so `find_dependencies` returns
that same error and no topological sorting takes place. -/
theorem missing_dependency_discovery (jsDoc : Lookup) (starts : List String)
    (x z : String) (hnd : starts.Nodup)
    (hstart : ∀ s ∈ starts, (assocGet jsDoc s).isSome = true)
    (hreach : Reachable jsDoc starts x) (hz : z ∈ depsOfD jsDoc x)
    (hznone : assocGet jsDoc z = none) :
    ∃ x2 z2, Reachable jsDoc starts x2 ∧ z2 ∈ depsOfD jsDoc x2
      ∧ assocGet jsDoc z2 = none
      ∧ build_dependency_graph starts jsDoc = .error (.missing x2 z2)
      ∧ find_dependencies starts jsDoc = .error (.missing x2 z2) := by
  obtain ⟨st0, h0⟩ := addStarts_isSome_ok jsDoc starts ⟨[], [], []⟩ hstart
  have hinv := BInv_init jsDoc starts st0 hnd h0
  obtain ⟨hg0, hp0, _, _⟩ := addStarts_strong jsDoc starts ⟨[], [], []⟩ st0 hnd
    (fun s _ => rfl) h0
  simp only [List.nil_append] at hg0 hp0
  have hbuild : build_dependency_graph starts jsDoc
      = buildLoop jsDoc (jsDoc.length + starts.length + 1) st0 := by
    unfold build_dependency_graph
    rw [h0]
  cases hres : buildLoop jsDoc (jsDoc.length + starts.length + 1) st0 with
  | ok pair =>
      obtain ⟨g, ss⟩ := pair
      obtain ⟨hout, hmono⟩ := buildLoop_ok jsDoc starts _ st0 g ss hinv hres
      have hstartsg : ∀ s ∈ starts, (assocGet g s).isSome = true := by
        intro s hs
        refine hmono s ?_
        rw [hg0, assocGet_keyed_map _ starts s hs]
        rfl
      have hxg := reachable_in_graph jsDoc starts g ss hout hstartsg x hreach
      have hzg := hout.closed x hxg z hz
      have := hout.inUniv z hzg
      rw [hznone] at this
      exact Bool.noConfusion this
  | error e =>
      rcases buildLoop_error jsDoc starts _ st0 e hinv hres with hfe | ⟨x2, z2, hr2, hz2, hn2, he2⟩
      · exfalso
        refine buildLoop_no_fuel_exhaustion jsDoc _ st0 ?_ (by rw [hfe] at hres; exact hres)
        have hple : st0.pending.length = starts.length := by rw [hp0]
        have huc : unseenCount jsDoc st0.graph ≤ jsDoc.length := by
          unfold unseenCount
          calc ((jsDoc.map Prod.fst).filter _).length
              ≤ (jsDoc.map Prod.fst).length := List.length_filter_le _ _
            _ = jsDoc.length := List.length_map jsDoc Prod.fst
        omega
      · subst he2
        refine ⟨x2, z2, hr2, hz2, hn2, by rw [hbuild, hres], ?_⟩
        unfold find_dependencies
        rw [hbuild, hres]

/-- Witness for C6: the lookup `X → [Z]` with `Z` absent, started from `X`. -/
theorem missing_dependency_discovery_witness :
    ∃ x2 z2, Reachable [("X", ["Z"])] ["X"] x2 ∧ z2 ∈ depsOfD [("X", ["Z"])] x2
      ∧ assocGet [("X", ["Z"])] z2 = none
      ∧ build_dependency_graph ["X"] [("X", ["Z"])] = .error (.missing x2 z2)
      ∧ find_dependencies ["X"] [("X", ["Z"])] = .error (.missing x2 z2) :=
  missing_dependency_discovery [("X", ["Z"])] ["X"] "X" "Z" (by decide) (by decide)
    (Reachable.base (by decide)) (by decide) (by decide)

/-!
## Counting edges during the sort

During `topological_sort` a node's current in-degree equals its original
in-degree minus the number of edges into it from already-popped nodes.  Since
the original in-degree counts exactly the edges into the node, a node reaches
in-degree zero precisely when all of its in-neighbours have been popped.
-/

/-- Edges into `x` contributed by the popped nodes, over the original edge
lists. -/
def popCount (g0 : Graph) (retval : List String) (x : String) : Nat :=
  (retval.map (fun p => (edgeList g0 p).count x)).sum

theorem sum_map_le_of_nodup_subset (f : String → Nat) :
    ∀ (r L : List String), r.Nodup → (∀ a ∈ r, a ∈ L) →
      (r.map f).sum ≤ (L.map f).sum := by
  intro r
  induction r with
  | nil => intro L _ _; simp
  | cons p t ih =>
      intro L hnd hsub
      have hp : p ∈ L := hsub p (List.mem_cons_self p t)
      have hperm : List.Perm L (p :: L.erase p) := List.perm_cons_erase hp
      have hsum : (L.map f).sum = f p + ((L.erase p).map f).sum := by
        have := (hperm.map f).sum_eq
        simpa using this
      have hsubt : ∀ a ∈ t, a ∈ L.erase p := by
        intro a ha
        have hne : a ≠ p := by
          intro he
          subst he
          exact (List.nodup_cons.mp hnd).1 ha
        rw [List.mem_erase_of_ne hne]
        exact hsub a (List.mem_cons_of_mem p ha)
      have ht := ih (L.erase p) (List.nodup_cons.mp hnd).2 hsubt
      simp only [List.map_cons, List.sum_cons]
      omega

theorem mem_of_sum_map_eq (f : String → Nat) :
    ∀ (r L : List String), r.Nodup → (∀ a ∈ r, a ∈ L) →
      (r.map f).sum = (L.map f).sum →
      ∀ d ∈ L, 0 < f d → d ∈ r := by
  intro r L hnd hsub heq d hd hfd
  by_contra hdr
  have hperm : List.Perm L (d :: L.erase d) := List.perm_cons_erase hd
  have hsum : (L.map f).sum = f d + ((L.erase d).map f).sum := by
    have := (hperm.map f).sum_eq
    simpa using this
  have hsubt : ∀ a ∈ r, a ∈ L.erase d := by
    intro a ha
    have hne : a ≠ d := fun he => hdr (he ▸ ha)
    rw [List.mem_erase_of_ne hne]
    exact hsub a ha
  have hle := sum_map_le_of_nodup_subset f r (L.erase d) hnd hsubt
  omega

/-- With distinct keys, the total number of edges into `x` is the sum over
all keys of the per-node edge counts. -/
theorem totalInto_eq_sum_keys (x : String) :
    ∀ g : Graph, (graphKeys g).Nodup →
      totalInto g x = ((graphKeys g).map (fun k => (edgeList g k).count x)).sum := by
  intro g
  induction g with
  | nil => intro _; rfl
  | cons e t ih =>
      intro hnd
      obtain ⟨k1, v1⟩ := e
      have hnd2 : (graphKeys t).Nodup := (List.nodup_cons.mp hnd).2
      have hk1 : k1 ∉ graphKeys t := (List.nodup_cons.mp hnd).1
      have hhead : edgeList ((k1, v1) :: t) k1 = v1.2 := by
        unfold edgeList
        simp [assocGet]
      have htail : ∀ k ∈ graphKeys t, edgeList ((k1, v1) :: t) k = edgeList t k := by
        intro k hk
        have hne : ¬k1 = k := fun he => hk1 (he ▸ hk)
        unfold edgeList
        simp [assocGet, hne]
      show v1.2.count x + totalInto t x = _
      unfold graphKeys
      simp only [List.map_cons, List.sum_cons]
      rw [ih hnd2]
      have hcongr : (graphKeys t).map (fun k => (edgeList ((k1, v1) :: t) k).count x)
          = (graphKeys t).map (fun k => (edgeList t k).count x) := by
        apply List.map_congr_left
        intro k hk
        rw [htail k hk]
      show v1.2.count x + _ = (edgeList ((k1, v1) :: t) k1).count x
          + ((graphKeys t).map (fun k => (edgeList ((k1, v1) :: t) k).count x)).sum
      rw [hhead, hcongr]

/-- A failing `processChildren` met a child with no graph entry. -/
theorem processChildren_error :
    ∀ (cs : List String) (g : Graph) (stack : List String) (e : DepError),
      processChildren g stack cs = .error e →
      ∃ c ∈ cs, assocGet g c = none := by
  intro cs
  induction cs with
  | nil => intro g stack e h; exact Except.noConfusion h
  | cons c cs ih =>
      intro g stack e h
      simp only [processChildren] at h
      cases hc : assocGet g c with
      | none => exact ⟨c, List.mem_cons_self c cs, hc⟩
      | some v =>
          obtain ⟨dc, es⟩ := v
          rw [hc] at h
          have hb : processChildren (assocSet g c (dc - 1, es))
              (if dc - 1 = 0 then stack ++ [c] else stack) cs = .error e := h
          obtain ⟨c2, hc2, hn⟩ := ih _ _ e hb
          by_cases he : c2 = c
          · subst he
            rw [assocGet_assocSet_self] at hn
            exact Option.noConfusion hn
          · rw [assocGet_assocSet_ne _ _ _ _ he] at hn
            exact ⟨c2, List.mem_cons_of_mem c hc2, hn⟩

theorem processChildren_spec (retval : List String) :
    ∀ (cs : List String) (g : Graph) (stack : List String)
      (g2 : Graph) (stack2 : List String),
      processChildren g stack cs = .ok (g2, stack2) →
      (∀ x ∈ retval ++ stack, deg g x ≤ 0) →
      (retval ++ stack).Nodup →
      (∀ k, (assocGet g2 k).isSome = (assocGet g k).isSome)
        ∧ (∀ k, edgeList g2 k = edgeList g k)
        ∧ (∀ k, deg g2 k = deg g k - (cs.count k : Int))
        ∧ (∀ k ∈ stack, k ∈ stack2)
        ∧ (∀ k ∈ stack2, k ∈ stack ∨ k ∈ cs)
        ∧ (∀ x ∈ retval ++ stack2, deg g2 x ≤ 0)
        ∧ (retval ++ stack2).Nodup
        ∧ (∀ k, deg g2 k = 0 → deg g k = 0 ∨ k ∈ stack2) := by
  intro cs
  induction cs with
  | nil =>
      intro g stack g2 stack2 h hnp hnd
      simp only [processChildren] at h
      injection h with h2
      have hg : g = g2 := congrArg Prod.fst h2
      have hs : stack = stack2 := congrArg Prod.snd h2
      subst hg hs
      exact ⟨fun k => rfl, fun k => rfl, fun k => by simp, fun k hk => hk,
        fun k hk => Or.inl hk, hnp, hnd, fun k hk => Or.inl hk⟩
  | cons c cs ih =>
      intro g stack g2 stack2 h hnp hnd
      simp only [processChildren] at h
      cases hc : assocGet g c with
      | none => rw [hc] at h; exact Except.noConfusion h
      | some v =>
          obtain ⟨dc, es⟩ := v
          rw [hc] at h
          set gm := assocSet g c (dc - 1, es) with hgm
          set stackm := if dc - 1 = 0 then stack ++ [c] else stack with hstackm
          have hb : processChildren gm stackm cs = .ok (g2, stack2) := h
          have hdegc : deg g c = dc := by
            unfold deg
            rw [hc]
            rfl
          have hkeysm : ∀ k, (assocGet gm k).isSome = (assocGet g k).isSome := by
            intro k
            rw [hgm, isSome_assocSet]
            by_cases he : k = c
            · simp [he, hc]
            · simp [he]
          have hedgesm : ∀ k, edgeList gm k = edgeList g k := by
            intro k
            by_cases he : k = c
            · subst he
              rw [hgm, edgeList_assocSet_self]
              unfold edgeList
              rw [hc]
              rfl
            · rw [hgm, edgeList_assocSet_ne _ _ _ _ he]
          have hdegm : ∀ k, deg gm k = deg g k - (if c = k then 1 else 0) := by
            intro k
            by_cases he : k = c
            · subst he
              rw [hgm, deg_assocSet_self, hdegc]
              simp
            · rw [hgm, deg_assocSet_ne _ _ _ _ he]
              have hne : ¬c = k := fun hh => he hh.symm
              simp [hne]
          have hnpm : ∀ x ∈ retval ++ stackm, deg gm x ≤ 0 := by
            intro x hx
            rw [hstackm] at hx
            by_cases hpush : dc - 1 = 0
            · rw [if_pos hpush] at hx
              rcases List.mem_append.mp hx with hx2 | hx2
              · have := hnp x (List.mem_append_left _ hx2)
                rw [hdegm x]
                by_cases he : c = x <;> simp [he] <;> omega
              · rcases List.mem_append.mp hx2 with hx3 | hx3
                · have := hnp x (List.mem_append_right _ hx3)
                  rw [hdegm x]
                  by_cases he : c = x <;> simp [he] <;> omega
                · simp at hx3
                  subst hx3
                  rw [hdegm x, if_pos rfl, hdegc]
                  omega
            · rw [if_neg hpush] at hx
              have := hnp x hx
              rw [hdegm x]
              by_cases he : c = x <;> simp [he] <;> omega
          have hndm : (retval ++ stackm).Nodup := by
            rw [hstackm]
            by_cases hpush : dc - 1 = 0
            · rw [if_pos hpush]
              have hcnotin : c ∉ retval ++ stack := by
                intro hcin
                have := hnp c hcin
                rw [hdegc] at this
                omega
              rw [← List.append_assoc, List.nodup_append]
              refine ⟨hnd, List.nodup_singleton c, ?_⟩
              intro a ha hb2
              simp at hb2
              subst hb2
              exact hcnotin ha
            · rw [if_neg hpush]
              exact hnd
          obtain ⟨pkeys, pedges, pdeg, pmono, pnew, pnp, pnd, pzero⟩ :=
            ih gm stackm g2 stack2 hb hnpm hndm
          refine ⟨?_, ?_, ?_, ?_, ?_, ?_, ?_, ?_⟩
          · intro k
            rw [pkeys k, hkeysm k]
          · intro k
            rw [pedges k, hedgesm k]
          · intro k
            rw [pdeg k, hdegm k, List.count_cons]
            by_cases he : c = k
            · subst he
              simp
              omega
            · have hkc : ¬k = c := fun hh => he hh.symm
              simp only [if_neg he, beq_iff_eq, if_neg hkc]
              omega
          · intro k hk
            refine pmono k ?_
            rw [hstackm]
            by_cases hpush : dc - 1 = 0
            · rw [if_pos hpush]
              exact List.mem_append_left _ hk
            · rw [if_neg hpush]
              exact hk
          · intro k hk
            rcases pnew k hk with h2 | h2
            · rw [hstackm] at h2
              by_cases hpush : dc - 1 = 0
              · rw [if_pos hpush] at h2
                rcases List.mem_append.mp h2 with h3 | h3
                · exact Or.inl h3
                · simp at h3
                  subst h3
                  exact Or.inr (List.mem_cons_self k cs)
              · rw [if_neg hpush] at h2
                exact Or.inl h2
            · exact Or.inr (List.mem_cons_of_mem c h2)
          · exact pnp
          · exact pnd
          · intro k hk
            rcases pzero k hk with h2 | h2
            · by_cases he : k = c
              · subst he
                rw [hdegm k, if_pos rfl] at h2
                have hpush : dc - 1 = 0 := by
                  rw [hdegc] at h2
                  omega
                refine Or.inr (pmono k ?_)
                rw [hstackm, if_pos hpush]
                exact List.mem_append_right _ (by simp)
              · rw [hdegm k, if_neg (fun hh => he hh.symm)] at h2
                simp at h2
                exact Or.inl h2
            · exact Or.inr h2

/-!
## The sort-loop invariant

While `sortLoop` runs over a graph built by `build_dependency_graph`, the
graph keeps the original keys and edge lists, each key's current in-degree is
its original in-degree minus the edges into it from popped nodes, popped and
stacked nodes are distinct keys with non-positive degree, every zero-degree
key has been popped or stacked, and every popped node has all of the nodes it
depends on already popped.
-/

/-- Invariant of `sortLoop` relative to the starting graph `g0`. -/
structure SInv (g0 g : Graph) (stack retval : List String) : Prop where
  keys : ∀ k, (assocGet g k).isSome = (assocGet g0 k).isSome
  edges : ∀ k, edgeList g k = edgeList g0 k
  degEq : ∀ x, (assocGet g0 x).isSome = true →
      deg g x = deg g0 x - (popCount g0 retval x : Int)
  nd : (retval ++ stack).Nodup
  inKeys : ∀ k ∈ retval ++ stack, (assocGet g0 k).isSome = true
  zeroIn : ∀ x, (assocGet g0 x).isSome = true → deg g x = 0 →
      x ∈ retval ∨ x ∈ stack
  nonpos : ∀ x ∈ retval ++ stack, deg g x ≤ 0
  closedIn : ∀ x ∈ retval, ∀ d, (assocGet g0 d).isSome = true →
      x ∈ edgeList g0 d → d ∈ retval

/-- When the popped edges into `x` account for every edge into `x`, each node
whose edge list mentions `x` has already been popped. -/
theorem popped_cover (g0 : Graph) (hKnd : (graphKeys g0).Nodup)
    (retval : List String) (hnd : retval.Nodup)
    (hsub : ∀ a ∈ retval, (assocGet g0 a).isSome = true)
    (x : String)
    (hEq : (popCount g0 retval x : Int) = (totalInto g0 x : Int)) :
    ∀ d, x ∈ edgeList g0 d → d ∈ retval := by
  intro d hxd
  have hdSome : (assocGet g0 d).isSome = true := by
    cases hgd : assocGet g0 d with
    | none =>
        exfalso
        have hnil : edgeList g0 d = [] := by
          unfold edgeList
          rw [hgd]
          rfl
        rw [hnil] at hxd
        exact List.not_mem_nil x hxd
    | some v => rfl
  have hdK : d ∈ graphKeys g0 := mem_keys_of_assocGet _ _ hdSome
  have h2 : popCount g0 retval x = totalInto g0 x := by exact_mod_cast hEq
  have hkeysum := totalInto_eq_sum_keys x g0 hKnd
  refine mem_of_sum_map_eq (fun p => (edgeList g0 p).count x) retval (graphKeys g0)
    hnd (fun a ha => mem_keys_of_assocGet _ _ (hsub a ha)) ?_ d hdK ?_
  · unfold popCount at h2
    rw [h2, hkeysum]
  · exact List.count_pos_iff.mpr hxd

/-- Every graph key is popped once the popped set is closed under declared
dependencies and contains the start node. -/
theorem sort_keys_covered (jsDoc : Lookup) (s : String) (g0 : Graph)
    (ss0 : List String) (hout : BuildOut jsDoc [s] g0 ss0)
    (hsG : (assocGet g0 s).isSome = true)
    (R : List String) (hsR : s ∈ R)
    (hclosed : ∀ x ∈ R, ∀ d, (assocGet g0 d).isSome = true →
      x ∈ edgeList g0 d → d ∈ R) :
    ∀ k, (assocGet g0 k).isSome = true → k ∈ R := by
  have hstarts : ∀ t ∈ ([s] : List String), (assocGet g0 t).isSome = true := by
    intro t ht
    rw [List.mem_singleton.mp ht]
    exact hsG
  intro k hk
  have hreach := hout.reach k hk
  clear hk
  induction hreach with
  | base hs => rw [List.mem_singleton.mp hs]; exact hsR
  | @step x d hx hd ih =>
      have hxG : (assocGet g0 x).isSome = true :=
        reachable_in_graph jsDoc [s] g0 ss0 hout hstarts x hx
      have hdG : (assocGet g0 d).isSome = true := hout.closed x hxG d hd
      have hedge : x ∈ edgeList g0 d := hout.depEdge x hxG d hd
      exact hclosed x ih d hdG hedge

/-- `sortLoop` on an empty ready stack can only return the accumulated
result. -/
theorem sortLoop_empty_stack :
    ∀ (fuel : Nat) (g : Graph) (retval l : List String),
      sortLoop fuel g [] retval = .ok l → l = retval := by
  intro fuel g retval l h
  cases fuel with
  | zero => exact Except.noConfusion h
  | succ fuel =>
      simp only [sortLoop] at h
      have hb : (if leftoverNodes g = [] then Except.ok retval
          else Except.error (DepError.cyclic (leftoverNodes g))) = Except.ok l := h
      by_cases hl : leftoverNodes g = []
      · rw [if_pos hl] at hb
        injection hb with h2
        exact h2.symm
      · rw [if_neg hl] at hb
        exact Except.noConfusion hb

/-- Main sort lemma: under the sort invariant, if the single start node `s`
has not been popped yet, a successful `sortLoop` ends its output with `s`. -/
theorem sortLoop_last (jsDoc : Lookup) (s : String) (g0 : Graph)
    (ss0 : List String) (hout : BuildOut jsDoc [s] g0 ss0)
    (hsG : (assocGet g0 s).isSome = true) :
    ∀ (fuel : Nat) (g : Graph) (stack retval l : List String),
      SInv g0 g stack retval → s ∉ retval →
      sortLoop fuel g stack retval = .ok l →
      l.getLast? = some s := by
  have hE : ∀ x, (assocGet g0 x).isSome = true →
      deg g0 x = (totalInto g0 x : Int) := by
    intro x hx
    rw [hout.degLen x hx, hout.intoEq x hx]
  intro fuel
  induction fuel with
  | zero => intro g stack retval l _ _ h; exact Except.noConfusion h
  | succ fuel ih =>
      intro g stack retval l hinv hs h
      simp only [sortLoop] at h
      cases hlast : stack.getLast? with
      | none =>
          rw [hlast] at h
          have hstack : stack = [] := List.getLast?_eq_none_iff.mp hlast
          subst hstack
          exfalso
          have hretnd : retval.Nodup := by
            have := hinv.nd
            simpa using this
          have hsub : ∀ a ∈ retval, a ∈ graphKeys g0 := by
            intro a ha
            exact mem_keys_of_assocGet _ _
              (hinv.inKeys a (List.mem_append_left _ ha))
          have hple : popCount g0 retval s ≤ totalInto g0 s := by
            calc popCount g0 retval s
                = (retval.map (fun p => (edgeList g0 p).count s)).sum := rfl
              _ ≤ ((graphKeys g0).map (fun p => (edgeList g0 p).count s)).sum :=
                  sum_map_le_of_nodup_subset _ retval _ hretnd hsub
              _ = totalInto g0 s := (totalInto_eq_sum_keys s g0 hout.keysNodup).symm
          have hge : 0 ≤ deg g s := by
            rw [hinv.degEq s hsG, hE s hsG]
            omega
          have hb : (if leftoverNodes g = [] then Except.ok retval
              else Except.error (DepError.cyclic (leftoverNodes g)))
              = Except.ok l := h
          by_cases hl : leftoverNodes g = []
          · have hsome : (assocGet g s).isSome = true := by
              rw [hinv.keys s]
              exact hsG
            obtain ⟨v, hv⟩ := Option.isSome_iff_exists.mp hsome
            have hfil : g.filter (fun e => 0 < e.2.1) = [] :=
              List.map_eq_nil_iff.mp hl
            have hmem : (s, v) ∈ g := assocGet_mem _ _ _ hv
            have hnpos : ¬ (0 < v.1) := by
              have := List.filter_eq_nil_iff.mp hfil _ hmem
              simpa using this
            have hdegs : deg g s = v.1 := by
              unfold deg
              rw [hv]
              rfl
            rw [hdegs] at hge
            have hzero : deg g s = 0 := by
              rw [hdegs]
              omega
            rcases hinv.zeroIn s hsG hzero with hr | hc
            · exact hs hr
            · exact List.not_mem_nil s hc
          · rw [if_neg hl] at hb
            exact Except.noConfusion hb
      | some node =>
          rw [hlast] at h
          obtain ⟨pre, hpre⟩ := List.getLast?_eq_some_iff.mp hlast
          have hnodeStack : node ∈ stack := by
            rw [hpre]
            exact List.mem_append_right _ (List.mem_singleton_self node)
          have hnodeRS : node ∈ retval ++ stack :=
            List.mem_append_right retval hnodeStack
          have hnodeG0 : (assocGet g0 node).isSome = true := hinv.inKeys node hnodeRS
          have hnodeG : (assocGet g node).isSome = true := by
            rw [hinv.keys node]
            exact hnodeG0
          cases hn : assocGet g node with
          | none =>
              rw [hn] at hnodeG
              exact Bool.noConfusion hnodeG
          | some v =>
              obtain ⟨dv, es⟩ := v
              have h1 : (match assocGet g node with
                  | none => Except.error (DepError.keyError node)
                  | some (_, es2) =>
                    match processChildren g stack.dropLast es2 with
                    | .error e => .error e
                    | .ok (g2, stack2) => sortLoop fuel g2 stack2 (retval ++ [node]))
                  = Except.ok l := h
              rw [hn, hpre, List.dropLast_concat] at h1
              have hb : (match processChildren g pre es with
                  | .error e => .error e
                  | .ok (g2, stack2) => sortLoop fuel g2 stack2 (retval ++ [node]))
                  = Except.ok l := h1
              cases hpc : processChildren g pre es with
              | error e =>
                  rw [hpc] at hb
                  have hbe : (Except.error e : Except DepError (List String))
                      = Except.ok l := hb
                  exact Except.noConfusion hbe
              | ok p =>
                  obtain ⟨g2, stack2⟩ := p
                  rw [hpc] at hb
                  have hok : sortLoop fuel g2 stack2 (retval ++ [node])
                      = Except.ok l := hb
                  have hes0 : es = edgeList g0 node := by
                    have h1b : edgeList g node = es := by
                      unfold edgeList
                      rw [hn]
                      rfl
                    rw [← h1b]
                    exact hinv.edges node
                  have hndRS := hinv.nd
                  have hdisj : ∀ a ∈ retval, a ∉ stack := by
                    have h3 := List.nodup_append.mp hndRS
                    exact fun a ha hb2 => h3.2.2 ha hb2
                  have hnodeR : node ∉ retval := fun hr => hdisj node hr hnodeStack
                  have hretnd : retval.Nodup := (List.nodup_append.mp hndRS).1
                  have hsub : ∀ a ∈ retval, a ∈ graphKeys g0 := fun a ha =>
                    mem_keys_of_assocGet _ _
                      (hinv.inKeys a (List.mem_append_left _ ha))
                  have hple : popCount g0 retval node ≤ totalInto g0 node := by
                    calc popCount g0 retval node
                        = (retval.map (fun p => (edgeList g0 p).count node)).sum := rfl
                      _ ≤ ((graphKeys g0).map
                            (fun p => (edgeList g0 p).count node)).sum :=
                          sum_map_le_of_nodup_subset _ retval _ hretnd hsub
                      _ = totalInto g0 node :=
                          (totalInto_eq_sum_keys node g0 hout.keysNodup).symm
                  have hdle : deg g node ≤ 0 := hinv.nonpos node hnodeRS
                  have hdegEq := hinv.degEq node hnodeG0
                  have hEnode := hE node hnodeG0
                  have hpopEq : (popCount g0 retval node : Int)
                      = (totalInto g0 node : Int) := by omega
                  have hnbrs : ∀ d, node ∈ edgeList g0 d → d ∈ retval :=
                    popped_cover g0 hout.keysNodup retval hretnd
                      (fun a ha => hinv.inKeys a (List.mem_append_left _ ha))
                      node hpopEq
                  have hperm : List.Perm ((retval ++ [node]) ++ pre)
                      (retval ++ stack) := by
                    rw [hpre, List.append_assoc]
                    exact List.Perm.append_left retval List.perm_append_comm
                  have hnd2 : ((retval ++ [node]) ++ pre).Nodup :=
                    hperm.symm.nodup hndRS
                  have hnp2 : ∀ x ∈ (retval ++ [node]) ++ pre, deg g x ≤ 0 := by
                    intro x hx
                    exact hinv.nonpos x (hperm.mem_iff.mp hx)
                  obtain ⟨pkeys, pedges, pdeg, pmono, pnew, pnp, pnd, pzero⟩ :=
                    processChildren_spec (retval ++ [node]) es g pre g2 stack2
                      hpc hnp2 hnd2
                  have hinv2 : SInv g0 g2 stack2 (retval ++ [node]) := by
                    refine ⟨?_, ?_, ?_, pnd, ?_, ?_, pnp, ?_⟩
                    · intro k
                      rw [pkeys k]
                      exact hinv.keys k
                    · intro k
                      rw [pedges k]
                      exact hinv.edges k
                    · intro x hx
                      have h1 := pdeg x
                      have h2 := hinv.degEq x hx
                      have hpop : popCount g0 (retval ++ [node]) x
                          = popCount g0 retval x + (edgeList g0 node).count x := by
                        unfold popCount
                        rw [List.map_append, List.sum_append]
                        simp
                      have hcnt : es.count x = (edgeList g0 node).count x := by
                        rw [hes0]
                      rw [h1, h2, hcnt, hpop]
                      push_cast
                      ring
                    · intro k hk
                      rcases List.mem_append.mp hk with hk1 | hk2
                      · rcases List.mem_append.mp hk1 with hk3 | hk4
                        · exact hinv.inKeys k (List.mem_append_left _ hk3)
                        · rw [List.mem_singleton.mp hk4]
                          exact hnodeG0
                      · rcases pnew k hk2 with hk5 | hk6
                        · refine hinv.inKeys k (List.mem_append_right _ ?_)
                          rw [hpre]
                          exact List.mem_append_left _ hk5
                        · refine hout.edgeTarget node k ?_
                          rw [← hes0]
                          exact hk6
                    · intro x hx hz
                      rcases pzero x hz with h0 | h0
                      · rcases hinv.zeroIn x hx h0 with hr | hstk
                        · exact Or.inl (List.mem_append_left _ hr)
                        · rw [hpre] at hstk
                          rcases List.mem_append.mp hstk with hp | hn2
                          · exact Or.inr (pmono x hp)
                          · exact Or.inl (List.mem_append_right _ hn2)
                      · exact Or.inr h0
                    · intro x hx d hdG hxd
                      rcases List.mem_append.mp hx with hr | hn2
                      · exact List.mem_append_left _ (hinv.closedIn x hr d hdG hxd)
                      · rw [List.mem_singleton.mp hn2] at hxd
                        exact List.mem_append_left _ (hnbrs d hxd)
                  by_cases hns : node = s
                  · subst hns
                    have hcov : ∀ k, (assocGet g0 k).isSome = true →
                        k ∈ retval ++ [node] :=
                      sort_keys_covered jsDoc node g0 ss0 hout hsG
                        (retval ++ [node])
                        (List.mem_append_right _ (List.mem_singleton_self node))
                        (fun x hx d hdG hxd => hinv2.closedIn x hx d hdG hxd)
                    have hstack2 : stack2 = [] := by
                      cases hst2 : stack2 with
                      | nil => rfl
                      | cons a t =>
                          exfalso
                          have ha : a ∈ stack2 := by
                            rw [hst2]
                            exact List.mem_cons_self a t
                          have haG := hinv2.inKeys a (List.mem_append_right _ ha)
                          have haR := hcov a haG
                          exact (List.nodup_append.mp hinv2.nd).2.2 haR ha
                    rw [hstack2] at hok
                    rw [sortLoop_empty_stack fuel g2 (retval ++ [node]) l hok]
                    exact List.getLast?_concat retval
                  · refine ih g2 stack2 (retval ++ [node]) l hinv2 ?_ hok
                    intro hsmem
                    rcases List.mem_append.mp hsmem with hr | hn2
                    · exact hs hr
                    · exact hns (List.mem_singleton.mp hn2).symm

/-- C4: whenever `find_dependencies` started from the single file key `s`
succeeds (the graph is acyclic and fully resolvable, so no error is raised),
the returned `all_dependencies` list ends with `s`: the file's own key is the
final element of its dependency list. -/
theorem find_dependencies_start_last (jsDoc : Lookup) (s : String)
    (l : List String) (h : find_dependencies [s] jsDoc = .ok l) :
    l.getLast? = some s := by
  unfold find_dependencies at h
  cases hbd : build_dependency_graph [s] jsDoc with
  | error e =>
      rw [hbd] at h
      exact Except.noConfusion h
  | ok pair =>
      obtain ⟨g, ss⟩ := pair
      rw [hbd] at h
      have hsort : topological_sort g ss = Except.ok l := h
      unfold build_dependency_graph at hbd
      cases h0 : addStarts jsDoc ⟨[], [], []⟩ [s] with
      | error e =>
          rw [h0] at hbd
          exact Except.noConfusion hbd
      | ok st0 =>
          rw [h0] at hbd
          have hb2 : buildLoop jsDoc (jsDoc.length + ([s] : List String).length + 1)
              st0 = Except.ok (g, ss) := hbd
          have hnd : ([s] : List String).Nodup := by simp
          have hinvB := BInv_init jsDoc [s] st0 hnd h0
          obtain ⟨hg0, hp0, hss0, hu0⟩ :=
            addStarts_strong jsDoc [s] ⟨[], [], []⟩ st0 hnd (fun t _ => rfl) h0
          simp only [List.nil_append] at hg0
          obtain ⟨hout, hmono⟩ := buildLoop_ok jsDoc [s] _ st0 g ss hinvB hb2
          have hsG : (assocGet g s).isSome = true := by
            refine hmono s ?_
            rw [hg0, assocGet_keyed_map _ [s] s (List.mem_singleton_self s)]
            rfl
          unfold topological_sort at hsort
          have hinv0 : SInv g g ss [] := by
            refine ⟨fun k => rfl, fun k => rfl, ?_, ?_, ?_, ?_, ?_, ?_⟩
            · intro x hx
              unfold popCount
              simp
            · simp only [List.nil_append]
              exact hout.ssNodup
            · intro k hk
              simp only [List.nil_append] at hk
              exact ((hout.ssIff k).mp hk).1
            · intro x hx hz
              exact Or.inr ((hout.ssIff x).mpr ⟨hx, hz⟩)
            · intro x hx
              simp only [List.nil_append] at hx
              have := ((hout.ssIff x).mp hx).2
              omega
            · intro x hx
              exact absurd hx (List.not_mem_nil x)
          exact sortLoop_last jsDoc s g ss hout hsG (g.length + ss.length + 1)
            g ss [] l hinv0 (List.not_mem_nil s) hsort

/-- Witness for C4: on the lookup `A → []`, `B → [A]`, `C → [A, B]` started
from `C`, the sort succeeds and the result ends with `C` itself. -/
theorem find_dependencies_start_last_witness :
    find_dependencies ["C"] [("A", []), ("B", ["A"]), ("C", ["A", "B"])]
        = .ok ["A", "B", "C"]
      ∧ (["A", "B", "C"] : List String).getLast? = some "C" :=
  ⟨by rfl,
    find_dependencies_start_last [("A", []), ("B", ["A"]), ("C", ["A", "B"])]
      "C" ["A", "B", "C"] (by rfl)⟩

end PyJsDoc
